import Mathlib

/-!
# Backlight: brightness arithmetic, device selection and file round trip

A shallow embedding of main.go: the float64 arithmetic of Percent and SetPercent (IEEE-754
binary64, round to nearest, ties to even, over exact rationals), listBacklights, the binary
search of the device check, main as a function from its surroundings to an exit status and a
trace of calls, and the decimal text written to and scanned from the brightness file.
The Go type int is taken to be 64 bits wide.
-/


/-- Value of an IEEE-754 binary64 (Go float64) datum: not-a-number, a signed infinity, or a
finite number kept as a sign bit and the exact rational magnitude (so both zeros exist). -/
inductive F64 where
  | nan : F64
  | inf (neg : Bool) : F64
  | fin (neg : Bool) (mag : ℚ) : F64
deriving DecidableEq

namespace F64

/-- Round half to even: the integer nearest to x, the even one when x is halfway. -/
def rne (x : ℚ) : ℤ :=
  if x - ⌊x⌋ < 1 / 2 then ⌊x⌋
  else if 1 / 2 < x - ⌊x⌋ then ⌊x⌋ + 1
  else if ⌊x⌋ % 2 = 0 then ⌊x⌋ else ⌊x⌋ + 1

/-- Exponent of the unit in the last place of a 53-bit significand holding magnitude a:
floor(log2 a) - 52, not below the subnormal exponent -1074. -/
def ulpExp (a : ℚ) : ℤ := max (Int.log 2 a - 52) (-1074)

/-- Magnitude a rounded to the nearest multiple of its unit in the last place, ties to even
(exponent range unbounded above). -/
def roundMag (a : ℚ) : ℚ := (rne (a / 2 ^ ulpExp a) : ℚ) * 2 ^ ulpExp a

/-- IEEE-754 roundTiesToEven of the exact result with sign neg and magnitude a: overflow to
infinity once the rounded magnitude reaches 2^1024. -/
def round (neg : Bool) (a : ℚ) : F64 :=
  if 2 ^ 1024 ≤ roundMag a then inf neg else fin neg (roundMag a)

/-- Go float64 multiplication x * y. -/
def mul : F64 → F64 → F64
  | nan, _ => nan
  | _, nan => nan
  | inf s, inf t => inf (xor s t)
  | inf s, fin t n => if n = 0 then nan else inf (xor s t)
  | fin s m, inf t => if m = 0 then nan else inf (xor s t)
  | fin s m, fin t n => round (xor s t) (m * n)

/-- Go float64 division x / y. -/
def div : F64 → F64 → F64
  | nan, _ => nan
  | _, nan => nan
  | inf _, inf _ => nan
  | inf s, fin t _ => inf (xor s t)
  | fin s _, inf t => fin (xor s t) 0
  | fin s m, fin t n =>
    if n = 0 then (if m = 0 then nan else inf (xor s t)) else round (xor s t) (m / n)

/-- Go conversion float64(i) of an int. -/
def ofInt (i : ℤ) : F64 := round (decide (i < 0)) ((|i| : ℤ) : ℚ)

/-- Go conversion int(x) of a float64, int being 64 bits wide: the fraction is discarded; when
the truncated value does not fit (or x is not finite) the language leaves the result to the
implementation, here the parameter indef. -/
def toInt (indef : F64 → ℤ) : F64 → ℤ
  | fin s m =>
    if -2 ^ 63 ≤ (if s then -⌊m⌋ else ⌊m⌋) ∧ (if s then -⌊m⌋ else ⌊m⌋) < 2 ^ 63
    then (if s then -⌊m⌋ else ⌊m⌋) else indef (fin s m)
  | x => indef x

/-- The untyped constant 100. as a float64. -/
def hundred : F64 := fin false 100

/-- Rational value of a finite datum (0 for the others). -/
def toRat : F64 → ℚ
  | fin s m => if s then -m else m
  | _ => 0

/-- Finite data. -/
def IsFinite : F64 → Prop
  | fin _ _ => True
  | _ => False

/-- Data that are genuine binary64 values: a finite magnitude is m * 2^e with a significand
below 2^53 and an exponent between -1074 and 971. -/
def IsFloat : F64 → Prop
  | fin _ a => ∃ m : ℕ, ∃ e : ℤ, m < 2 ^ 53 ∧ -1074 ≤ e ∧ e ≤ 971 ∧ a = (m : ℚ) * 2 ^ e
  | _ => True

/-- Result of int(x) on amd64 where the language leaves it open: the integer indefinite
value, the smallest int64. -/
def indefiniteInteger : F64 → ℤ := fun _ => -2 ^ 63

/-- Truncation of an exact rational toward zero. -/
def truncToZero (v : ℚ) : ℤ := if 0 ≤ v then ⌊v⌋ else ⌈v⌉

end F64

/-- Type Brightness of main.go; the two fields are Go ints, 64 bits wide. -/
structure Brightness where
  Current : ℤ
  Max : ℤ
deriving DecidableEq

namespace Brightness

/-- Method Percent: 100. * float64(b.Current) / float64(b.Max), evaluated left to right. -/
def Percent (b : Brightness) : F64 :=
  F64.div (F64.mul F64.hundred (F64.ofInt b.Current)) (F64.ofInt b.Max)

/-- The float64 operand of the conversion in SetPercent: (p / 100.) * float64(b.Max). -/
def scaled (b : Brightness) (p : F64) : F64 :=
  F64.mul (F64.div p F64.hundred) (F64.ofInt b.Max)

/-- Method SetPercent: b.Current = int((p / 100.) * float64(b.Max)); the pointer receiver
becomes the returned value. -/
def SetPercent (indef : F64 → ℤ) (b : Brightness) (p : F64) : Brightness :=
  { b with Current := F64.toInt indef (b.scaled p) }

/-- Specified raw value: the exact product (p / 100) × max truncated toward zero, with no
rounding in between. -/
def exactRaw (p : ℚ) (max : ℤ) : ℤ := F64.truncToZero (p / 100 * (max : ℚ))

end Brightness


namespace Backlight

/-- Entry of a directory listing (fs.FileInfo), as far as the program looks at it. -/
structure FileInfo where
  Name : String
  IsDir : Bool
deriving DecidableEq

/-- Errors of listBacklights. -/
inductive ListError where
  | readFailed (cause : String) : ListError
  | noBacklights : ListError
deriving DecidableEq

/-- Function listBacklights, given what ioutil.ReadDir of /sys/class/backlight returned; the
range loop appends one name per entry. -/
def listBacklights (readDir : Except String (List FileInfo)) : Except ListError (List String) :=
  match readDir with
  | .error err => .error (.readFailed err)
  | .ok subdirs =>
    let result := subdirs.foldl (fun acc d => acc ++ [d.Name]) ([] : List String)
    if result.length = 0 then .error .noBacklights else .ok result

/-- Loop of slices.BinarySearch (golang.org/x/exp/slices) on the bounds i and j; an index out
of range, a run-time panic in Go, gives none. -/
def binarySearchLoop {α : Type} [LinearOrder α] (x : List α) (target : α) (i j : ℕ) :
    Option ℕ :=
  if i < j then
    match x[(i + j) / 2]? with
    | none => none
    | some v =>
      if v < target then binarySearchLoop x target ((i + j) / 2 + 1) j
      else binarySearchLoop x target i ((i + j) / 2)
  else some i
termination_by j - i
decreasing_by all_goals omega

/-- Function slices.BinarySearch: the position found and whether the target is there. Go
compares strings bytewise; on names that are valid UTF-8 this is the order of String here,
lexicographic by code point. -/
def BinarySearch {α : Type} [LinearOrder α] (x : List α) (target : α) : Option (ℕ × Bool) :=
  (binarySearchLoop x target 0 x.length).map
    fun i => (i, decide (i < x.length) && decide (x[i]? = some target))

/-- Errors of scanning with fmt. -/
inductive ScanError where
  | unexpectedNewline : ScanError
  | unexpectedEOF : ScanError
  | expectedInteger : ScanError
  | outOfRange : ScanError
deriving DecidableEq

/-- Space characters of package fmt (its isSpace table). -/
def isSpace (c : Char) : Bool :=
  let n := c.toNat
  (0x09 ≤ n && n ≤ 0x0d) || n == 0x20 || n == 0x85 || n == 0xa0 || n == 0x1680 ||
  (0x2000 ≤ n && n ≤ 0x200a) || n == 0x2028 || n == 0x2029 || n == 0x202f ||
  n == 0x205f || n == 0x3000

/-- Method SkipSpace of the scan state of Fscanf, where a newline is not a space. -/
def skipSpace : List Char → Except ScanError (List Char)
  | [] => .ok []
  | c :: cs =>
    if c = '\r' ∧ cs.head? = some '\n' then skipSpace cs
    else if c = '\n' then .error .unexpectedNewline
    else if isSpace c then skipSpace cs
    else .ok (c :: cs)

/-- Value of a decimal digit character. -/
def digitVal (c : Char) : ℕ := c.toNat - '0'.toNat

/-- Function strconv.ParseInt(tok, 10, 64) on a token of an optional sign and digits. -/
def parseInt (neg : Bool) (digits : List Char) : Except ScanError ℤ :=
  let v : ℤ := (digits.foldl (fun acc c => 10 * acc + digitVal c) 0 : ℕ)
  let i : ℤ := if neg then -v else v
  if -2 ^ 63 ≤ i ∧ i < 2 ^ 63 then .ok i else .error .outOfRange

/-- Scan of the verb d after the spaces: an optional sign, then at least one decimal digit. -/
def scanNumber (input : List Char) : Except ScanError ℤ :=
  match input with
  | [] => .error .unexpectedEOF
  | c :: cs =>
    let neg := decide (c = '-')
    let rest := if c = '+' ∨ c = '-' then cs else c :: cs
    match rest with
    | [] => .error .unexpectedEOF
    | d :: ds =>
      if d.isDigit then parseInt neg ((d :: ds).takeWhile Char.isDigit)
      else .error .expectedInteger

/-- Call fmt.Fscanf(f, "%d", &result) on the contents of f. -/
def fscanInt (input : List Char) : Except ScanError ℤ :=
  match skipSpace input with
  | .error e => .error e
  | .ok rest => scanNumber rest

/-- Text of fmt.Fprintf(f, "%d", n) for a natural number. -/
def formatNat (n : ℕ) : List Char :=
  if n = 0 then ['0'] else ((Nat.digits 10 n).reverse.map Nat.digitChar)

/-- Text of fmt.Fprintf(f, "%d", i). -/
def formatInt (i : ℤ) : List Char :=
  if i < 0 then '-' :: formatNat i.natAbs else formatNat i.natAbs

/-- Errors of reading a light. -/
inductive ReadError where
  | openFailed (cause : String) : ReadError
  | scan (cause : ScanError) : ReadError
deriving DecidableEq

/-- What the process is run against: the answers of the operating system and of the library
calls that are not modelled further. -/
structure World where
  /-- Result of ioutil.ReadDir on /sys/class/backlight. -/
  readDir : Except String (List FileInfo)
  /-- Result of os.Open on a path: the contents of the file. -/
  openFile : String → Except String (List Char)
  /-- Result of os.Create on a path. -/
  createFile : String → Except String Unit
  /-- Result of writing a text to the file created at a path. -/
  writeFile : String → List Char → Except String Unit
  /-- Result of fmt.Sscanf(arg, "%f", &percent). -/
  sscanFloat : String → Except String F64
  /-- Result of int(x) where the language leaves it to the implementation. -/
  indef : F64 → ℤ

/-- Lines the program prints. -/
inductive Message where
  | listError (err : ListError) : Message
  | usage : Message
  | available (lights : List String) : Message
  | notFound (name : String) (lights : List String) : Message
  | statusFailed (err : ReadError) : Message
  | current (percent : F64) : Message
  | notNumber (arg : String) (cause : String) : Message
  | setFailed (cause : String) : Message
  | set (percent : F64) : Message

/-- Interactions of the process with its surroundings, in order. -/
inductive Call where
  | readDir : Call
  | openFile (path : String) : Call
  | createFile (path : String) : Call
  | writeFile (path : String) (text : List Char) : Call
  | stdout (m : Message) : Call
  | stderr (m : Message) : Call

/-- Outcome of a run: exit status and interactions. -/
structure Result where
  exit : ℕ
  trace : List Call

/-- Path currentPath of readLight and writeLight. -/
def brightnessPath (name : String) : String := "/sys/class/backlight/" ++ name ++ "/brightness"

/-- Path maxPath of readLight. -/
def maxBrightnessPath (name : String) : String :=
  "/sys/class/backlight/" ++ name ++ "/max_brightness"

/-- Function readIntFile: os.Open, then fmt.Fscanf with the verb d into an int. -/
def readIntFile (w : World) (path : String) : Except ReadError ℤ :=
  match w.openFile path with
  | .error err => .error (.openFailed err)
  | .ok contents =>
    match fscanInt contents with
    | .error err => .error (.scan err)
    | .ok result => .ok result

/-- Function readLight, with the files it opened. -/
def readLight (w : World) (name : String) : Except ReadError Brightness × List Call :=
  match readIntFile w (brightnessPath name) with
  | .error err => (.error err, [.openFile (brightnessPath name)])
  | .ok current =>
    match readIntFile w (maxBrightnessPath name) with
    | .error err =>
      (.error err, [.openFile (brightnessPath name), .openFile (maxBrightnessPath name)])
    | .ok max =>
      (.ok ⟨current, max⟩, [.openFile (brightnessPath name), .openFile (maxBrightnessPath name)])

/-- Function writeLight, with the file operations it performed. -/
def writeLight (w : World) (name : String) (b : Brightness) : Except String Unit × List Call :=
  match w.createFile (brightnessPath name) with
  | .error err => (.error err, [.createFile (brightnessPath name)])
  | .ok _ =>
    (w.writeFile (brightnessPath name) (formatInt b.Current),
      [.createFile (brightnessPath name),
       .writeFile (brightnessPath name) (formatInt b.Current)])

/-- Function main, after flag.Parse gave the value of -p and the positional arguments. A
run-time panic of the binary search would end the process with status 2. -/
def main (w : World) (lightName : String) (args : List String) : Result :=
  match listBacklights w.readDir with
  | .error err => ⟨1, [.readDir, .stderr (.listError err)]⟩
  | .ok lights =>
    if lightName = "" then
      ⟨1, [.readDir, .stderr .usage, .stderr (.available lights)]⟩
    else
      match BinarySearch lights lightName with
      | none => ⟨2, [.readDir]⟩
      | some (_, false) => ⟨1, [.readDir, .stderr (.notFound lightName lights)]⟩
      | some (_, true) =>
        match readLight w lightName with
        | (.error err, opened) => ⟨1, .readDir :: opened ++ [.stderr (.statusFailed err)]⟩
        | (.ok brightness, opened) =>
          match args with
          | [] => ⟨0, .readDir :: opened ++ [.stdout (.current brightness.Percent)]⟩
          | arg :: _ =>
            match w.sscanFloat arg with
            | .error err =>
              ⟨1, .readDir :: opened ++
                [.stdout (.current brightness.Percent), .stderr (.notNumber arg err)]⟩
            | .ok percent =>
              match writeLight w lightName (brightness.SetPercent w.indef percent) with
              | (.error err, written) =>
                ⟨1, .readDir :: opened ++ [.stdout (.current brightness.Percent)] ++ written ++
                  [.stderr (.setFailed err)]⟩
              | (.ok _, written) =>
                ⟨0, .readDir :: opened ++ [.stdout (.current brightness.Percent)] ++ written ++
                  [.stdout (.set (brightness.SetPercent w.indef percent).Percent)]⟩

/-- Calls that change a file. -/
def Call.isWrite : Call → Bool
  | .createFile _ => true
  | .writeFile _ _ => true
  | _ => false

end Backlight

namespace Backlight

/-- Example surroundings: two lights, every file reads 50, every call succeeds, and the
argument 29 scans as the float64 29. -/
def exampleWorld : World where
  readDir := .ok [⟨"acpi_video0", true⟩, ⟨"intel_backlight", true⟩]
  openFile := fun _ => .ok ['5', '0', '\n']
  createFile := fun _ => .ok ()
  writeFile := fun _ _ => .ok ()
  sscanFloat := fun arg => if arg = "29" then .ok (F64.fin false 29) else .error "bad syntax"
  indef := F64.indefiniteInteger

/-- Surroundings of exampleWorld in which every file holds the given text. -/
def worldHolding (text : List Char) : World :=
  { exampleWorld with openFile := fun _ => .ok text }

end Backlight

/-! ## Rounding -/

namespace F64

theorem rne_intCast (n : ℤ) : rne (n : ℚ) = n := by
  simp [rne]

theorem floor_le_rne (x : ℚ) : ⌊x⌋ ≤ rne x := by
  unfold rne; split_ifs <;> omega

theorem rne_le_floor_add_one (x : ℚ) : rne x ≤ ⌊x⌋ + 1 := by
  unfold rne; split_ifs <;> omega

theorem rne_mono {x y : ℚ} (h : x ≤ y) : rne x ≤ rne y := by
  have hf : ⌊x⌋ ≤ ⌊y⌋ := Int.floor_mono h
  rcases lt_or_eq_of_le hf with hlt | heq
  · calc rne x ≤ ⌊x⌋ + 1 := rne_le_floor_add_one x
      _ ≤ ⌊y⌋ := hlt
      _ ≤ rne y := floor_le_rne y
  · unfold rne
    rw [← heq]
    split_ifs <;> first | omega | (exfalso; linarith)

theorem abs_rne_sub_le (x : ℚ) : |(rne x : ℚ) - x| ≤ 1 / 2 := by
  have h1 := Int.floor_le x
  have h2 := Int.lt_floor_add_one x
  unfold rne
  rw [abs_le]
  split_ifs <;> push_cast <;> constructor <;> linarith

theorem rne_nonneg {x : ℚ} (h : 0 ≤ x) : 0 ≤ rne x := by
  have := rne_mono h
  rwa [show ((0:ℚ)) = ((0:ℤ):ℚ) by simp, rne_intCast] at this

theorem rne_le_of_le {x : ℚ} {n : ℤ} (h : x ≤ n) : rne x ≤ n := by
  have := rne_mono h
  rwa [rne_intCast] at this

theorem le_rne_of_le {x : ℚ} {n : ℤ} (h : (n : ℚ) ≤ x) : n ≤ rne x := by
  have := rne_mono h
  rwa [rne_intCast] at this

theorem two_zpow_pos (e : ℤ) : (0 : ℚ) < 2 ^ e := by positivity

theorem ulpExp_mono {a b : ℚ} (ha : 0 < a) (h : a ≤ b) : ulpExp a ≤ ulpExp b := by
  have := Int.log_mono_right (b := 2) ha h
  unfold ulpExp
  omega

theorem log_sub_le_ulpExp (a : ℚ) : Int.log 2 a - 52 ≤ ulpExp a := le_max_left _ _

theorem lt_two_zpow_ulpExp (a : ℚ) : a < 2 ^ (ulpExp a + 53) := by
  have h1 : a < (2 : ℚ) ^ (Int.log 2 a + 1) := by
    have := Int.lt_zpow_succ_log_self (R := ℚ) (b := 2) (by norm_num) a
    simpa using this
  have h2 : (2 : ℚ) ^ (Int.log 2 a + 1) ≤ 2 ^ (ulpExp a + 53) := by
    apply zpow_le_zpow_right₀ (by norm_num)
    have := log_sub_le_ulpExp a
    omega
  exact lt_of_lt_of_le h1 h2

theorem two_zpow_le_of_ulpExp {a : ℚ} (ha : 0 < a) (h : -1074 < ulpExp a) :
    (2 : ℚ) ^ (ulpExp a + 52) ≤ a := by
  have he : ulpExp a = Int.log 2 a - 52 := by
    unfold ulpExp at h ⊢
    omega
  have := Int.zpow_log_le_self (R := ℚ) (b := 2) (by norm_num) ha
  rw [he]
  simpa using this

theorem ulpExp_eq {a : ℚ} {e : ℤ} (he : -1074 ≤ e) (h1 : (2 : ℚ) ^ (e + 52) ≤ a)
    (h2 : a < 2 ^ (e + 53)) : ulpExp a = e := by
  have ha : 0 < a := lt_of_lt_of_le (two_zpow_pos _) h1
  have l1 : e + 52 ≤ Int.log 2 a := by
    rw [← Int.zpow_le_iff_le_log (by norm_num) ha]; simpa using h1
  have l2 : Int.log 2 a < e + 53 := by
    rw [← Int.lt_zpow_iff_log_lt (by norm_num) ha]; simpa using h2
  unfold ulpExp
  omega

theorem ulpExp_eq_min {a : ℚ} (ha : 0 < a) (h2 : a < 2 ^ (-1022 : ℤ)) :
    ulpExp a = -1074 := by
  unfold ulpExp
  have l2 : Int.log 2 a < -1022 := by
    rw [← Int.lt_zpow_iff_log_lt (by norm_num) ha]; simpa using h2
  omega

theorem roundMag_zero : roundMag 0 = 0 := by
  simp [roundMag, rne]

theorem roundMag_nonneg {a : ℚ} (ha : 0 ≤ a) : 0 ≤ roundMag a := by
  unfold roundMag
  have h : 0 ≤ a / 2 ^ ulpExp a := div_nonneg ha (two_zpow_pos _).le
  have := rne_nonneg h
  have h3 : (0 : ℚ) ≤ (rne (a / 2 ^ ulpExp a) : ℚ) := by exact_mod_cast this
  exact mul_nonneg h3 (two_zpow_pos _).le

theorem roundMag_le_two_zpow (a : ℚ) : roundMag a ≤ 2 ^ (ulpExp a + 53) := by
  unfold roundMag
  have h : a / 2 ^ ulpExp a ≤ ((2 ^ 53 : ℤ) : ℚ) := by
    rw [div_le_iff₀ (two_zpow_pos _)]
    have := lt_two_zpow_ulpExp a
    rw [zpow_add₀ (by norm_num)] at this
    push_cast
    have e : (2 : ℚ) ^ (53 : ℤ) = 2 ^ 53 := by norm_num
    rw [e] at this
    linarith
  have h2 := rne_le_of_le h
  have h3 : (rne (a / 2 ^ ulpExp a) : ℚ) ≤ 2 ^ 53 := by exact_mod_cast h2
  rw [zpow_add₀ (by norm_num), mul_comm ((2:ℚ) ^ ulpExp a)]
  have e : (2 : ℚ) ^ (53 : ℤ) = 2 ^ 53 := by norm_num
  rw [e]
  exact mul_le_mul_of_nonneg_right h3 (two_zpow_pos _).le

theorem two_zpow_le_roundMag {a : ℚ} (ha : 0 < a) (h : -1074 < ulpExp a) :
    (2 : ℚ) ^ (ulpExp a + 52) ≤ roundMag a := by
  unfold roundMag
  have h0 := two_zpow_le_of_ulpExp ha h
  have h1 : ((2 ^ 52 : ℤ) : ℚ) ≤ a / 2 ^ ulpExp a := by
    rw [le_div_iff₀ (two_zpow_pos _)]
    rw [zpow_add₀ (by norm_num)] at h0
    push_cast
    have e : (2 : ℚ) ^ (52 : ℤ) = 2 ^ 52 := by norm_num
    rw [e] at h0
    linarith
  have h2 := le_rne_of_le h1
  have h3 : (2 : ℚ) ^ 52 ≤ (rne (a / 2 ^ ulpExp a) : ℚ) := by exact_mod_cast h2
  rw [zpow_add₀ (by norm_num), mul_comm ((2:ℚ) ^ ulpExp a)]
  have e : (2 : ℚ) ^ (52 : ℤ) = 2 ^ 52 := by norm_num
  rw [e]
  exact mul_le_mul_of_nonneg_right h3 (two_zpow_pos _).le

theorem roundMag_mono {a b : ℚ} (ha : 0 ≤ a) (h : a ≤ b) : roundMag a ≤ roundMag b := by
  rcases eq_or_lt_of_le ha with h0 | hpos
  · rw [← h0, roundMag_zero]; exact roundMag_nonneg (ha.trans h)
  · have hE := ulpExp_mono hpos h
    rcases eq_or_lt_of_le hE with heq | hlt
    · unfold roundMag
      rw [heq]
      apply mul_le_mul_of_nonneg_right _ (two_zpow_pos _).le
      have : a / 2 ^ ulpExp b ≤ b / 2 ^ ulpExp b :=
        div_le_div_of_nonneg_right h (two_zpow_pos _).le
      exact_mod_cast rne_mono this
    · have hb : 0 < b := lt_of_lt_of_le hpos h
      have hmin : -1074 < ulpExp b := by
        have : -1074 ≤ ulpExp a := le_max_right _ _
        omega
      calc roundMag a ≤ 2 ^ (ulpExp a + 53) := roundMag_le_two_zpow a
        _ ≤ 2 ^ (ulpExp b + 52) := zpow_le_zpow_right₀ (by norm_num) (by omega)
        _ ≤ roundMag b := two_zpow_le_roundMag hb hmin

theorem roundMag_exact (m : ℕ) (e : ℤ) (hm : m < 2 ^ 53) (he : -1074 ≤ e) :
    roundMag ((m : ℚ) * 2 ^ e) = (m : ℚ) * 2 ^ e := by
  rcases Nat.eq_zero_or_pos m with h0 | hpos
  · subst h0; simp [roundMag_zero]
  · set a : ℚ := (m : ℚ) * 2 ^ e with ha
    have hap : 0 < a := mul_pos (by exact_mod_cast hpos) (two_zpow_pos _)
    have hlt : a < 2 ^ (e + 53) := by
      rw [zpow_add₀ (by norm_num), mul_comm ((2:ℚ) ^ e)]
      apply mul_lt_mul_of_pos_right _ (two_zpow_pos _)
      have : (m : ℚ) < 2 ^ 53 := by exact_mod_cast hm
      have e : (2 : ℚ) ^ (53 : ℤ) = 2 ^ 53 := by norm_num
      rw [e]; exact this
    have hlog : Int.log 2 a < e + 53 := by
      rw [← Int.lt_zpow_iff_log_lt (by norm_num) hap]; simpa using hlt
    have hE : ulpExp a ≤ e := by unfold ulpExp; omega
    obtain ⟨k, hk⟩ := Int.eq_ofNat_of_zero_le (sub_nonneg.mpr hE)
    have hsc : a / 2 ^ ulpExp a = (((m : ℤ) * 2 ^ k : ℤ) : ℚ) := by
      rw [div_eq_iff (two_zpow_pos _).ne.symm, ha]
      push_cast
      rw [mul_assoc, ← zpow_natCast, ← zpow_add₀ (by norm_num), ← hk]
      congr 2
      ring
    unfold roundMag
    rw [hsc, rne_intCast, ← hsc]
    field_simp

theorem abs_roundMag_sub_le (a : ℚ) : |roundMag a - a| ≤ 2 ^ (ulpExp a - 1) := by
  unfold roundMag
  have h := abs_rne_sub_le (a / 2 ^ ulpExp a)
  have hp := two_zpow_pos (ulpExp a)
  have e1 : (rne (a / 2 ^ ulpExp a) : ℚ) * 2 ^ ulpExp a - a
      = ((rne (a / 2 ^ ulpExp a) : ℚ) - a / 2 ^ ulpExp a) * 2 ^ ulpExp a := by
    field_simp
  rw [e1, abs_mul, abs_of_pos hp, zpow_sub₀ (by norm_num)]
  calc |(rne (a / 2 ^ ulpExp a) : ℚ) - a / 2 ^ ulpExp a| * 2 ^ ulpExp a
      ≤ 1 / 2 * 2 ^ ulpExp a := mul_le_mul_of_nonneg_right h hp.le
    _ = 2 ^ ulpExp a / 2 ^ (1 : ℤ) := by norm_num; ring

end F64

namespace F64

theorem IsFloat.nonneg {s : Bool} {a : ℚ} (h : IsFloat (fin s a)) : 0 ≤ a := by
  obtain ⟨m, e, -, -, -, rfl⟩ := h
  positivity

theorem round_eq_fin {s : Bool} {a : ℚ} (h : roundMag a < 2 ^ 1024) :
    round s a = fin s (roundMag a) := by
  unfold round
  rw [if_neg (not_le.mpr h)]

theorem roundMag_natCast {n : ℕ} (h : n ≤ 2 ^ 53) : roundMag (n : ℚ) = n := by
  rcases Nat.lt_or_ge n (2 ^ 53) with hlt | hge
  · have := roundMag_exact n 0 hlt (by norm_num)
    simpa using this
  · have hn : n = 2 ^ 53 := le_antisymm h hge
    have := roundMag_exact (2 ^ 52) 1 (by norm_num) (by norm_num)
    subst hn
    norm_num at this ⊢
    exact this

theorem roundMag_intCast {i : ℤ} (h0 : 0 ≤ i) (h : i ≤ 2 ^ 53) : roundMag (i : ℚ) = i := by
  obtain ⟨n, rfl⟩ := Int.eq_ofNat_of_zero_le h0
  have hn : n ≤ 2 ^ 53 := by exact_mod_cast h
  simpa using roundMag_natCast hn

theorem ofInt_of_nonneg {i : ℤ} (h0 : 0 ≤ i) (h : i ≤ 2 ^ 53) : ofInt i = fin false i := by
  unfold ofInt
  rw [abs_of_nonneg h0, round_eq_fin, roundMag_intCast h0 h]
  · simp [not_lt.mpr h0]
  · rw [roundMag_intCast h0 h]
    have : (i : ℚ) ≤ 2 ^ 53 := by exact_mod_cast h
    linarith [show (2 : ℚ) ^ 53 < 2 ^ 1024 by norm_num]

theorem roundMag_one : roundMag 1 = 1 := by
  simpa using roundMag_natCast (n := 1) (by norm_num)

theorem roundMag_hundred : roundMag 100 = 100 := by
  simpa using roundMag_natCast (n := 100) (by norm_num)

end F64

namespace F64

theorem div_hundred (s : Bool) (m : ℚ) : div (fin s m) hundred = round s (m / 100) := by
  simp [div, hundred]

theorem mul_fin_pos (s : Bool) (x M : ℚ) : mul (fin s x) (fin false M) = round s (x * M) := by
  simp [mul]

theorem roundMag_le_of_le_nat {a : ℚ} {n : ℕ} (ha : 0 ≤ a) (h : a ≤ n) (hn : n ≤ 2 ^ 53) :
    roundMag a ≤ n := by
  have := roundMag_mono ha h
  rwa [roundMag_natCast hn] at this

theorem le_roundMag_of_nat_le {a : ℚ} {n : ℕ} (h : (n : ℚ) ≤ a) (hn : n ≤ 2 ^ 53) :
    (n : ℚ) ≤ roundMag a := by
  have := roundMag_mono (Nat.cast_nonneg n) h
  rwa [roundMag_natCast hn] at this

theorem two_pow_53_lt : (2 : ℚ) ^ 53 < 2 ^ 1024 := by norm_num

end F64

namespace Brightness

open F64

/-- On an in-range percentage and a maximum of at most 2^53 the operand of the conversion is
finite, carries the sign of p and lies between 0 and Max in magnitude. -/
theorem scaled_in_range (b : Brightness) (s : Bool) (m : ℚ) (hm0 : 0 ≤ m) (hm : m ≤ 100)
    (hmax : 0 ≤ b.Max) (hM : b.Max ≤ 2 ^ 53) :
    ∃ y : ℚ, b.scaled (fin s m) = fin s y ∧ 0 ≤ y ∧ y ≤ b.Max ∧ (m = 0 → y = 0) := by
  obtain ⟨n, hn⟩ := Int.eq_ofNat_of_zero_le hmax
  have hn53 : n ≤ 2 ^ 53 := by rw [hn] at hM; exact_mod_cast hM
  have hx0 : 0 ≤ m / 100 := by positivity
  have hx1 : m / 100 ≤ ((1 : ℕ) : ℚ) := by
    rw [div_le_iff₀ (by norm_num)]; push_cast; linarith
  have hr1 : roundMag (m / 100) ≤ 1 := by
    simpa using roundMag_le_of_le_nat hx0 hx1 (by norm_num)
  have hr0 : 0 ≤ roundMag (m / 100) := roundMag_nonneg hx0
  have hy0 : 0 ≤ roundMag (m / 100) * (n : ℚ) := mul_nonneg hr0 (Nat.cast_nonneg n)
  have hy1 : roundMag (m / 100) * (n : ℚ) ≤ (n : ℚ) := by
    calc roundMag (m / 100) * (n : ℚ) ≤ 1 * (n : ℚ) :=
          mul_le_mul_of_nonneg_right hr1 (Nat.cast_nonneg n)
      _ = n := one_mul _
  have hry : roundMag (roundMag (m / 100) * (n : ℚ)) ≤ n := roundMag_le_of_le_nat hy0 hy1 hn53
  have hn' : (n : ℚ) ≤ 2 ^ 53 := by exact_mod_cast hn53
  refine ⟨roundMag (roundMag (m / 100) * (n : ℚ)), ?_, roundMag_nonneg hy0, ?_, ?_⟩
  · unfold scaled
    rw [div_hundred, round_eq_fin (by linarith [two_pow_53_lt]),
      ofInt_of_nonneg hmax hM, mul_fin_pos, hn, Int.cast_natCast,
      round_eq_fin (by linarith [two_pow_53_lt])]
  · rw [hn]; exact_mod_cast hry
  · intro h0
    rw [h0]
    simp [roundMag_zero]

end Brightness

namespace F64

theorem toInt_fin (indef : F64 → ℤ) (s : Bool) (y : ℚ)
    (h1 : -2 ^ 63 ≤ (if s then -⌊y⌋ else ⌊y⌋)) (h2 : (if s then -⌊y⌋ else ⌊y⌋) < 2 ^ 63) :
    toInt indef (fin s y) = if s then -⌊y⌋ else ⌊y⌋ := by
  show (if _ then _ else _) = _
  exact if_pos ⟨h1, h2⟩

theorem finite_cases {p : F64} (h : p.IsFinite) : ∃ s m, p = fin s m := by
  cases p with
  | nan => exact absurd h (by simp [IsFinite])
  | inf s => exact absurd h (by simp [IsFinite])
  | fin s m => exact ⟨s, m, rfl⟩

end F64

namespace Brightness

open F64

theorem setPercent_in_range_aux (indef : F64 → ℤ) (b : Brightness) (p : F64)
    (hp : p.IsFloat) (hfin : p.IsFinite) (h0 : 0 ≤ p.toRat) (h100 : p.toRat ≤ 100)
    (hmax : 0 < b.Max) (hM : b.Max ≤ 2 ^ 53) :
    0 ≤ (b.SetPercent indef p).Current ∧ (b.SetPercent indef p).Current ≤ b.Max := by
  obtain ⟨s, m, rfl⟩ := finite_cases hfin
  have hm0 : 0 ≤ m := hp.nonneg
  have hs : s = true → m = 0 := by
    intro hs; subst hs
    simp only [toRat, if_true] at h0
    linarith
  have hm : m ≤ 100 := by
    cases s with
    | true => rw [hs rfl]; norm_num
    | false => simpa [toRat] using h100
  obtain ⟨y, hy, hy0, hyM, hyz⟩ := scaled_in_range b s m hm0 hm hmax.le hM
  have hf0 : 0 ≤ ⌊y⌋ := Int.floor_nonneg.mpr hy0
  have hfM : ⌊y⌋ ≤ b.Max := by
    have : ⌊y⌋ ≤ ⌊(b.Max : ℚ)⌋ := Int.floor_mono hyM
    simpa using this
  have key : (b.SetPercent indef (fin s m)).Current = if s then -⌊y⌋ else ⌊y⌋ := by
    show toInt indef (b.scaled (fin s m)) = _
    rw [hy]
    apply toInt_fin
    · split_ifs <;> omega
    · split_ifs <;> omega
  rw [key]
  cases s with
  | true =>
    have : y = 0 := hyz (hs rfl)
    subst this
    simp
    exact hmax.le
  | false => simpa using ⟨hf0, hfM⟩

end Brightness

namespace F64

theorem rne_of_lt_half {x : ℚ} (f : ℤ) (h1 : (f : ℚ) ≤ x) (h2 : x < f + 1 / 2) : rne x = f := by
  have hf : ⌊x⌋ = f := Int.floor_eq_iff.mpr ⟨h1, by linarith⟩
  unfold rne
  rw [hf, if_pos (by linarith)]

theorem rne_of_gt_half {x : ℚ} (f : ℤ) (h1 : (f : ℚ) + 1 / 2 < x) (h2 : x < f + 1) :
    rne x = f + 1 := by
  have hf : ⌊x⌋ = f := Int.floor_eq_iff.mpr ⟨by linarith, h2⟩
  unfold rne
  rw [hf, if_neg (by linarith), if_pos (by linarith)]

theorem rne_of_half_odd {x : ℚ} (f : ℤ) (h : x = f + 1 / 2) (ho : f % 2 = 1) :
    rne x = f + 1 := by
  have hf : ⌊x⌋ = f := Int.floor_eq_iff.mpr ⟨by linarith, by linarith⟩
  unfold rne
  rw [hf, if_neg (by linarith), if_neg (by linarith), if_neg (by omega)]

theorem rne_of_half_even {x : ℚ} (f : ℤ) (h : x = f + 1 / 2) (he : f % 2 = 0) :
    rne x = f := by
  have hf : ⌊x⌋ = f := Int.floor_eq_iff.mpr ⟨by linarith, by linarith⟩
  unfold rne
  rw [hf, if_neg (by linarith), if_neg (by linarith), if_pos he]

theorem roundMag_eval {a : ℚ} (e m : ℤ) (he : -1074 ≤ e) (h1 : (2 : ℚ) ^ (e + 52) ≤ a)
    (h2 : a < 2 ^ (e + 53)) (hm : rne (a / 2 ^ e) = m) : roundMag a = (m : ℚ) * 2 ^ e := by
  unfold roundMag
  rw [ulpExp_eq he h1 h2, hm]

end F64

open F64 Brightness

theorem eval_round_29 : F64.round false (29 / 100) = fin false (5224175567749775 / 2 ^ 54) := by
  have h : roundMag (29 / 100) = ((5224175567749775 : ℤ) : ℚ) * 2 ^ (-54 : ℤ) := by
    apply roundMag_eval (-54) 5224175567749775 (by norm_num) (by norm_num) (by norm_num)
    apply rne_of_lt_half <;> norm_num
  rw [round_eq_fin (by rw [h]; norm_num), h]
  norm_num

theorem eval_scaled_29 (c : ℤ) :
    Brightness.scaled ⟨c, 100⟩ (fin false 29) = fin false (8162774324609023 / 2 ^ 48) := by
  unfold scaled
  rw [div_hundred, eval_round_29, ofInt_of_nonneg (by norm_num) (by norm_num), mul_fin_pos]
  have h : roundMag (5224175567749775 / 2 ^ 54 * ((100 : ℤ) : ℚ))
      = ((8162774324609023 : ℤ) : ℚ) * 2 ^ (-48 : ℤ) := by
    apply roundMag_eval (-48) 8162774324609023 (by norm_num) (by norm_num) (by norm_num)
    apply rne_of_lt_half <;> norm_num
  rw [round_eq_fin (by rw [h]; norm_num), h]
  norm_num

theorem eval_setPercent_29 (indef : F64 → ℤ) (c : ℤ) :
    Brightness.SetPercent indef ⟨c, 100⟩ (fin false 29) = ⟨28, 100⟩ := by
  have hfl : ⌊(8162774324609023 / 2 ^ 48 : ℚ)⌋ = 28 := by
    rw [Int.floor_eq_iff]; constructor <;> norm_num
  show (⟨toInt indef (Brightness.scaled ⟨c, 100⟩ (fin false 29)), 100⟩ : Brightness) = _
  rw [eval_scaled_29, toInt_fin] <;> simp [hfl]

namespace F64

theorem round_fin_nonneg {s s' : Bool} {a y : ℚ} (ha : 0 ≤ a) (h : round s a = fin s' y) :
    0 ≤ y := by
  unfold round at h
  split_ifs at h
  injection h with _ h2
  rw [← h2]
  exact roundMag_nonneg ha

theorem truncToZero_signed (s : Bool) {y : ℚ} (hy : 0 ≤ y) :
    (if s then -⌊y⌋ else ⌊y⌋) = truncToZero (toRat (fin s y)) := by
  unfold truncToZero toRat
  cases s with
  | false => simp [hy]
  | true =>
    simp only [if_true]
    rcases eq_or_lt_of_le hy with h0 | hpos
    · rw [← h0]; simp
    · rw [if_neg (by linarith), Int.ceil_neg]

end F64

namespace Brightness

open F64

theorem scaled_mag_nonneg {b : Brightness} {p : F64} (hp : p.IsFloat) {s : Bool} {y : ℚ}
    (h : b.scaled p = fin s y) : 0 ≤ y := by
  unfold scaled at h
  have hM : 0 ≤ ((|b.Max| : ℤ) : ℚ) := by exact_mod_cast abs_nonneg _
  cases p with
  | nan => simp [div, mul] at h
  | inf t =>
    simp only [div, hundred, ofInt] at h
    unfold F64.round at h
    split_ifs at h
    · simp [mul] at h
    · simp only [mul] at h
      split_ifs at h
  | fin t m =>
    have hm : 0 ≤ m := hp.nonneg
    rw [div_hundred] at h
    unfold ofInt at h
    have hx : 0 ≤ m / 100 := by positivity
    unfold F64.round at h
    split_ifs at h with h1 h2 h3
    · simp [mul] at h
    · simp only [mul] at h
      split_ifs at h
    · simp only [mul] at h
      split_ifs at h
    · simp only [mul] at h
      exact round_fin_nonneg (mul_nonneg (roundMag_nonneg hx) (roundMag_nonneg hM)) h

theorem setPercent_current_eq (indef : F64 → ℤ) (b : Brightness) (p : F64) (hp : p.IsFloat)
    (hfin : (b.scaled p).IsFinite)
    (hlo : -2 ^ 63 ≤ truncToZero (b.scaled p).toRat)
    (hhi : truncToZero (b.scaled p).toRat < 2 ^ 63) :
    (b.SetPercent indef p).Current = truncToZero (b.scaled p).toRat := by
  obtain ⟨s, y, hy⟩ := finite_cases hfin
  have hy0 : 0 ≤ y := scaled_mag_nonneg hp hy
  show toInt indef (b.scaled p) = _
  rw [hy] at hlo hhi ⊢
  rw [← truncToZero_signed s hy0] at hlo hhi ⊢
  exact toInt_fin indef s y hlo hhi

end Brightness

open F64 Brightness

theorem eval_scaled_201_half (c : ℤ) :
    Brightness.scaled ⟨c, 100⟩ (fin false (201 / 2)) = fin false (7072058789855231 / 2 ^ 46) := by
  have h1 : roundMag (201 / 2 / 100) = ((4526117625507348 : ℤ) : ℚ) * 2 ^ (-52 : ℤ) := by
    apply roundMag_eval (-52) 4526117625507348 (by norm_num) (by norm_num) (by norm_num)
    apply rne_of_lt_half <;> norm_num
  have h2 : roundMag (((4526117625507348 : ℤ) : ℚ) * 2 ^ (-52 : ℤ) * ((100 : ℤ) : ℚ))
      = ((7072058789855231 : ℤ) : ℚ) * 2 ^ (-46 : ℤ) := by
    apply roundMag_eval (-46) 7072058789855231 (by norm_num) (by norm_num) (by norm_num)
    apply rne_of_lt_half <;> norm_num
  unfold scaled
  rw [div_hundred, round_eq_fin (by rw [h1]; norm_num), h1,
    ofInt_of_nonneg (by norm_num) (by norm_num), mul_fin_pos,
    round_eq_fin (by rw [h2]; norm_num), h2]
  norm_num

theorem eval_setPercent_201_half (indef : F64 → ℤ) (c : ℤ) :
    Brightness.SetPercent indef ⟨c, 100⟩ (fin false (201 / 2)) = ⟨100, 100⟩ := by
  have hfl : ⌊(7072058789855231 / 2 ^ 46 : ℚ)⌋ = 100 := by
    rw [Int.floor_eq_iff]; constructor <;> norm_num
  show (⟨toInt indef (Brightness.scaled ⟨c, 100⟩ (fin false (201 / 2))), 100⟩ : Brightness) = _
  rw [eval_scaled_201_half, toInt_fin] <;> simp [hfl]

theorem eval_scaled_70 (c : ℤ) :
    Brightness.scaled ⟨c, 90⟩ (fin false 70) = fin false (8866461766385663 / 2 ^ 47) := by
  have h1 : roundMag (70 / 100) = ((6305039478318694 : ℤ) : ℚ) * 2 ^ (-53 : ℤ) := by
    apply roundMag_eval (-53) 6305039478318694 (by norm_num) (by norm_num) (by norm_num)
    apply rne_of_lt_half <;> norm_num
  have h2 : roundMag (((6305039478318694 : ℤ) : ℚ) * 2 ^ (-53 : ℤ) * ((90 : ℤ) : ℚ))
      = ((8866461766385663 : ℤ) : ℚ) * 2 ^ (-47 : ℤ) := by
    apply roundMag_eval (-47) 8866461766385663 (by norm_num) (by norm_num) (by norm_num)
    apply rne_of_lt_half <;> norm_num
  unfold scaled
  rw [div_hundred, round_eq_fin (by rw [h1]; norm_num), h1,
    ofInt_of_nonneg (by norm_num) (by norm_num), mul_fin_pos,
    round_eq_fin (by rw [h2]; norm_num), h2]
  norm_num

theorem eval_setPercent_70 (indef : F64 → ℤ) (c : ℤ) :
    Brightness.SetPercent indef ⟨c, 90⟩ (fin false 70) = ⟨62, 90⟩ := by
  have hfl : ⌊(8866461766385663 / 2 ^ 47 : ℚ)⌋ = 62 := by
    rw [Int.floor_eq_iff]; constructor <;> norm_num
  show (⟨toInt indef (Brightness.scaled ⟨c, 90⟩ (fin false 70)), 90⟩ : Brightness) = _
  rw [eval_scaled_70, toInt_fin] <;> simp [hfl]

theorem roundMag_hundred_mul {c : ℤ} (h0 : 0 ≤ c) (h : 100 * c ≤ 2 ^ 55) :
    roundMag (((100 * c : ℤ) : ℚ)) = ((100 * c : ℤ) : ℚ) := by
  obtain ⟨n, rfl⟩ := Int.eq_ofNat_of_zero_le h0
  have hn : 25 * n < 2 ^ 53 := by omega
  have := roundMag_exact (25 * n) 2 hn (by norm_num)
  have e : (((25 * n : ℕ) : ℚ)) * 2 ^ (2 : ℤ) = ((100 * (n : ℤ) : ℤ) : ℚ) := by
    push_cast; norm_num; ring
  rw [e] at this
  exact this

theorem mul_hundred_ofInt {c : ℤ} (h0 : 0 ≤ c) (h : 100 * c ≤ 2 ^ 55) :
    F64.mul hundred (ofInt c) = fin false ((100 * c : ℤ) : ℚ) := by
  have hc : c ≤ 2 ^ 53 := by omega
  rw [ofInt_of_nonneg h0 hc]
  unfold hundred
  rw [mul_fin_pos]
  have e : (100 : ℚ) * (c : ℚ) = ((100 * c : ℤ) : ℚ) := by push_cast; ring
  have hr := roundMag_hundred_mul h0 h
  have hlt : ((100 * c : ℤ) : ℚ) ≤ 2 ^ 55 := by exact_mod_cast h
  rw [e, round_eq_fin (by rw [hr]; linarith [show (2 : ℚ) ^ 55 < 2 ^ 1024 by norm_num]), hr]

theorem eval_percent_62_90 :
    Brightness.Percent ⟨62, 90⟩ = fin false (2423812299452871 / 2 ^ 45) := by
  have h1 : roundMag (((100 * 62 : ℤ) : ℚ) / ((90 : ℤ) : ℚ))
      = ((4847624598905742 : ℤ) : ℚ) * 2 ^ (-46 : ℤ) := by
    apply roundMag_eval (-46) 4847624598905742 (by norm_num) (by norm_num) (by norm_num)
    apply rne_of_lt_half <;> norm_num
  unfold Percent
  rw [mul_hundred_ofInt (by norm_num) (by norm_num),
    ofInt_of_nonneg (by norm_num) (by norm_num)]
  simp only [F64.div]
  rw [if_neg (by norm_num), Bool.xor_false, round_eq_fin (by rw [h1]; norm_num), h1]
  norm_num

theorem eval_ofInt_big : ofInt 9007199254740995 = fin false 9007199254740996 := by
  have h1 : roundMag (((|9007199254740995| : ℤ) : ℚ))
      = ((4503599627370498 : ℤ) : ℚ) * 2 ^ (1 : ℤ) := by
    apply roundMag_eval 1 4503599627370498 (by norm_num) (by norm_num) (by norm_num)
    apply rne_of_half_odd 4503599627370497 <;> norm_num
  unfold ofInt
  rw [round_eq_fin (by rw [h1]; norm_num), h1]
  norm_num

theorem eval_scaled_big (c : ℤ) :
    Brightness.scaled ⟨c, 9007199254740995⟩ (fin false 100) = fin false 9007199254740996 := by
  have h2 := roundMag_exact 4503599627370498 1 (by norm_num) (by norm_num)
  have h3 : roundMag ((1 : ℚ) * 9007199254740996) = 9007199254740996 := by
    norm_num at h2 ⊢; exact h2
  unfold scaled
  rw [div_hundred, show (100 : ℚ) / 100 = 1 by norm_num,
    round_eq_fin (by rw [roundMag_one]; norm_num), roundMag_one, eval_ofInt_big, mul_fin_pos,
    round_eq_fin (by rw [h3]; norm_num), h3]

theorem eval_setPercent_big (indef : F64 → ℤ) (c : ℤ) :
    Brightness.SetPercent indef ⟨c, 9007199254740995⟩ (fin false 100)
      = ⟨9007199254740996, 9007199254740995⟩ := by
  show (⟨toInt indef (Brightness.scaled ⟨c, 9007199254740995⟩ (fin false 100)), _⟩
    : Brightness) = _
  rw [eval_scaled_big, toInt_fin] <;> simp

theorem eval_percent_big :
    Brightness.Percent ⟨360287970189643, 360287970189643⟩
      = fin false (7036874417766401 / 2 ^ 46) := by
  have h1 : roundMag ((100 : ℚ) * ((360287970189643 : ℤ) : ℚ))
      = ((4503599627370538 : ℤ) : ℚ) * 2 ^ (3 : ℤ) := by
    apply roundMag_eval 3 4503599627370538 (by norm_num) (by norm_num) (by norm_num)
    apply rne_of_half_odd 4503599627370537 <;> norm_num
  have h2 : roundMag (((4503599627370538 : ℤ) : ℚ) * 2 ^ (3 : ℤ) / ((360287970189643 : ℤ) : ℚ))
      = ((7036874417766401 : ℤ) : ℚ) * 2 ^ (-46 : ℤ) := by
    apply roundMag_eval (-46) 7036874417766401 (by norm_num) (by norm_num) (by norm_num)
    apply rne_of_gt_half 7036874417766400 <;> norm_num
  unfold Percent
  rw [ofInt_of_nonneg (by norm_num) (by norm_num)]
  unfold hundred
  rw [mul_fin_pos, round_eq_fin (by rw [h1]; norm_num), h1]
  simp only [F64.div]
  rw [if_neg (by norm_num), Bool.xor_false, round_eq_fin (by rw [h2]; norm_num), h2]
  norm_num

namespace Brightness

open F64

/-- With 100 * Max at most 2^55 and 0 ≤ Current ≤ Max both roundings of Percent collapse
into one rounding of the exact quotient, which stays at or below 100. -/
theorem percent_eq_round (b : Brightness) (hmax : 0 < b.Max) (hM : 100 * b.Max ≤ 2 ^ 55)
    (hc0 : 0 ≤ b.Current) (hc : b.Current ≤ b.Max) :
    b.Percent = fin false (roundMag (((100 * b.Current : ℤ) : ℚ) / ((b.Max : ℤ) : ℚ))) ∧
      roundMag (((100 * b.Current : ℤ) : ℚ) / ((b.Max : ℤ) : ℚ)) ≤ 100 := by
  have hMq : (0 : ℚ) < (b.Max : ℚ) := by exact_mod_cast hmax
  have hq0 : 0 ≤ ((100 * b.Current : ℤ) : ℚ) / ((b.Max : ℤ) : ℚ) := by
    apply div_nonneg _ hMq.le
    exact_mod_cast (by omega : 0 ≤ 100 * b.Current)
  have hq1 : ((100 * b.Current : ℤ) : ℚ) / ((b.Max : ℤ) : ℚ) ≤ ((100 : ℕ) : ℚ) := by
    rw [div_le_iff₀ hMq]
    have : ((100 * b.Current : ℤ) : ℚ) ≤ ((100 * b.Max : ℤ) : ℚ) := by
      exact_mod_cast (by omega : 100 * b.Current ≤ 100 * b.Max)
    push_cast at this ⊢
    linarith
  have hr : roundMag (((100 * b.Current : ℤ) : ℚ) / ((b.Max : ℤ) : ℚ)) ≤ 100 := by
    simpa using roundMag_le_of_le_nat hq0 hq1 (by norm_num)
  refine ⟨?_, hr⟩
  unfold Percent
  rw [mul_hundred_ofInt hc0 (by omega), ofInt_of_nonneg hmax.le (by omega)]
  simp only [F64.div]
  rw [if_neg hMq.ne.symm, Bool.xor_false, round_eq_fin (by linarith [two_pow_53_lt])]

theorem truncToZero_neg_iff (v : ℚ) : truncToZero v < 0 ↔ v ≤ -1 := by
  unfold truncToZero
  split_ifs with h
  · constructor
    · intro h2
      have := Int.floor_nonneg.mpr h
      omega
    · intro h2; linarith
  · push_neg at h
    constructor
    · intro h2
      have h3 : ⌈v⌉ ≤ -1 := by omega
      have := Int.ceil_le.mp h3
      simpa using this
    · intro h2
      have : ⌈v⌉ ≤ -1 := Int.ceil_le.mpr (by simpa using h2)
      omega

theorem truncToZero_gt_iff (v : ℚ) {M : ℤ} (hM : 0 ≤ M) :
    M < truncToZero v ↔ (M : ℚ) + 1 ≤ v := by
  unfold truncToZero
  split_ifs with h
  · constructor
    · intro h2
      have h3 : M + 1 ≤ ⌊v⌋ := by omega
      have := Int.le_floor.mp h3
      simpa using this
    · intro h2
      have : M + 1 ≤ ⌊v⌋ := Int.le_floor.mpr (by simpa using h2)
      omega
  · push_neg at h
    have hMq : (0 : ℚ) ≤ M := by exact_mod_cast hM
    constructor
    · intro h2
      have h3 : ⌈v⌉ ≤ 0 := Int.ceil_le.mpr (by simpa using h.le)
      omega
    · intro h2; linarith

end Brightness

namespace Brightness

open F64

theorem scaled_fin_eq {b : Brightness} (hmax : 0 ≤ b.Max) (hM : b.Max ≤ 2 ^ 53) {t s : Bool}
    {m y : ℚ} (h : b.scaled (fin t m) = fin s y) :
    s = t ∧ y = roundMag (roundMag (m / 100) * (b.Max : ℚ)) := by
  unfold scaled at h
  rw [div_hundred, ofInt_of_nonneg hmax hM] at h
  unfold F64.round at h
  split_ifs at h with h1
  · simp only [mul] at h
    split_ifs at h
  · rw [mul_fin_pos] at h
    unfold F64.round at h
    split_ifs at h
    injection h with h2 h3
    exact ⟨h2.symm, h3.symm⟩

theorem scaled_of_le_neg_hundred {b : Brightness} (hmax : 0 < b.Max) (hM : b.Max < 2 ^ 53)
    {p : F64} (hp : p.IsFloat) (hfin : (b.scaled p).IsFinite) (h : p.toRat ≤ -100) :
    (b.scaled p).toRat ≤ -1 := by
  obtain ⟨s, y, hy⟩ := finite_cases hfin
  cases p with
  | nan => simp only [toRat] at h; norm_num at h
  | inf t => simp only [toRat] at h; norm_num at h
  | fin t m =>
    have hm0 : 0 ≤ m := hp.nonneg
    obtain ⟨hs, hyv⟩ := scaled_fin_eq hmax.le (by omega) hy
    cases t with
    | false => simp only [toRat] at h; simp at h; linarith
    | true =>
      simp only [toRat, if_true] at h
      obtain ⟨n, hn⟩ := Int.eq_ofNat_of_zero_le hmax.le
      have hn53 : n ≤ 2 ^ 53 := by rw [hn] at hM; exact_mod_cast hM.le
      have hn1 : (1 : ℚ) ≤ n := by
        have : 0 < (n : ℤ) := by rw [← hn]; exact hmax
        exact_mod_cast this
      have hx : ((1 : ℕ) : ℚ) ≤ roundMag (m / 100) := by
        apply le_roundMag_of_nat_le _ (by norm_num)
        rw [le_div_iff₀ (by norm_num)]; push_cast; linarith
      have hxy : (n : ℚ) ≤ roundMag (m / 100) * (n : ℚ) := by
        push_cast at hx
        nlinarith
      have hyn : (n : ℚ) ≤ y := by
        rw [hyv, hn, Int.cast_natCast]
        exact le_roundMag_of_nat_le hxy hn53
      rw [hy, hs]
      simp only [toRat, if_true]
      linarith

theorem scaled_of_ge_two_hundred {b : Brightness} (hmax : 0 < b.Max) (hM : b.Max < 2 ^ 53)
    {p : F64} (hp : p.IsFloat) (hfin : (b.scaled p).IsFinite) (h : 200 ≤ p.toRat) :
    (b.Max : ℚ) + 1 ≤ (b.scaled p).toRat := by
  obtain ⟨s, y, hy⟩ := finite_cases hfin
  cases p with
  | nan => simp only [toRat] at h; norm_num at h
  | inf t => simp only [toRat] at h; norm_num at h
  | fin t m =>
    obtain ⟨hs, hyv⟩ := scaled_fin_eq hmax.le (by omega) hy
    cases t with
    | true =>
      exfalso
      simp only [toRat, if_true] at h
      have hm0 : 0 ≤ m := hp.nonneg
      linarith
    | false =>
      simp only [toRat] at h
      simp at h
      obtain ⟨n, hn⟩ := Int.eq_ofNat_of_zero_le hmax.le
      have hn53 : n + 1 ≤ 2 ^ 53 := by rw [hn] at hM; exact_mod_cast hM
      have hn1 : (1 : ℚ) ≤ n := by
        have : 0 < (n : ℤ) := by rw [← hn]; exact hmax
        exact_mod_cast this
      have hx : ((2 : ℕ) : ℚ) ≤ roundMag (m / 100) := by
        apply le_roundMag_of_nat_le _ (by norm_num)
        rw [le_div_iff₀ (by norm_num)]; push_cast; linarith
      have hxy : ((n + 1 : ℕ) : ℚ) ≤ roundMag (m / 100) * (n : ℚ) := by
        push_cast at hx ⊢
        nlinarith
      have hyn : ((n + 1 : ℕ) : ℚ) ≤ y := by
        rw [hyv, hn, Int.cast_natCast]
        exact le_roundMag_of_nat_le hxy hn53
      rw [hy, hs, hn]
      simp only [toRat]
      push_cast at hyn ⊢
      simpa using hyn

end Brightness

namespace F64

theorem abs_roundMag_sub_le_of_le {a b : ℚ} (ha : 0 ≤ a) (hab : a ≤ b) :
    |roundMag a - a| ≤ 2 ^ (ulpExp b - 1) := by
  rcases eq_or_lt_of_le ha with h0 | hpos
  · rw [← h0, roundMag_zero]; simp; positivity
  · calc |roundMag a - a| ≤ 2 ^ (ulpExp a - 1) := abs_roundMag_sub_le a
      _ ≤ 2 ^ (ulpExp b - 1) :=
        zpow_le_zpow_right₀ (by norm_num) (by have := ulpExp_mono hpos hab; omega)

theorem ulpExp_one : ulpExp 1 = -52 := ulpExp_eq (by norm_num) (by norm_num) (by norm_num)

theorem ulpExp_hundred : ulpExp 100 = -46 :=
  ulpExp_eq (by norm_num) (by norm_num) (by norm_num)

theorem abs_roundMag_sub_le_rel {a : ℚ} (ha : 0 ≤ a) :
    |roundMag a - a| ≤ a * 2 ^ (-53 : ℤ) + 2 ^ (-1075 : ℤ) := by
  rcases eq_or_lt_of_le ha with h0 | hpos
  · rw [← h0, roundMag_zero]; simp; positivity
  · have h := abs_roundMag_sub_le a
    have hmin : -1074 ≤ ulpExp a := le_max_right _ _
    rcases eq_or_lt_of_le hmin with he | hlt
    · rw [← he] at h
      have : (0 : ℚ) ≤ a * 2 ^ (-53 : ℤ) := by positivity
      have e : (2 : ℚ) ^ ((-1074 : ℤ) - 1) = 2 ^ (-1075 : ℤ) := by norm_num
      rw [e] at h
      linarith
    · have h2 := two_zpow_le_of_ulpExp hpos hlt
      have e : (2 : ℚ) ^ (ulpExp a - 1) = 2 ^ (ulpExp a + 52) * 2 ^ (-53 : ℤ) := by
        rw [← zpow_add₀ (by norm_num)]; congr 1; ring
      rw [e] at h
      have hp : (0 : ℚ) < 2 ^ (-53 : ℤ) := by positivity
      have hq : (0 : ℚ) < 2 ^ (-1075 : ℤ) := by positivity
      have := mul_le_mul_of_nonneg_right h2 hp.le
      linarith

/-- Arithmetic core of the round-trip bound, on the three rounding errors. -/
theorem roundtrip_arith (m M x y c P q u t r : ℚ) (hM : 1 ≤ M) (hu0 : 0 < u) (ht0 : 0 < t)
    (htu : t ≤ u) (hr0 : 0 < r) (hrM : r * M = 1) (hx1 : x ≤ 1)
    (h1 : |x - m / 100| ≤ u) (h2 : |y - x * M| ≤ x * M * u + t)
    (hc1 : c ≤ y) (hc2 : y < c + 1) (hq : q = 100 * r * c) (h3 : |P - q| ≤ 64 * u) :
    |P - m| ≤ 100 * r + 512 * u := by
  rw [abs_le] at h1 h2 h3 ⊢
  have hMpos : 0 < M := by linarith
  have hr1 : r ≤ 1 := by nlinarith
  have hxMu : x * M * u ≤ M * u := by
    have : x * M ≤ M := by nlinarith
    exact mul_le_mul_of_nonneg_right this hu0.le
  have a1 : M * (x - m / 100) ≤ M * u := mul_le_mul_of_nonneg_left h1.2 hMpos.le
  have a2 : M * (-u) ≤ M * (x - m / 100) := mul_le_mul_of_nonneg_left h1.1 hMpos.le
  have e : c - m * M / 100 = (c - y) + (y - x * M) + M * (x - m / 100) := by ring
  have hd_hi : c - m * M / 100 ≤ 2 * (M * u) + t := by
    rw [e]; linarith [h2.2]
  have hd_lo : -(1 + 2 * (M * u) + t) ≤ c - m * M / 100 := by
    rw [e]; linarith [h2.1]
  have hqm : q - m = 100 * r * (c - m * M / 100) := by
    have e2 : 100 * r * (c - m * M / 100) = 100 * r * c - m * (r * M) := by ring
    rw [e2, hrM, hq]; ring
  have h100r : 0 ≤ 100 * r := by positivity
  have hrt : r * t ≤ t := by nlinarith
  have hhi : q - m ≤ 200 * u + 100 * t := by
    rw [hqm]
    have h := mul_le_mul_of_nonneg_left hd_hi h100r
    have e3 : 100 * r * (2 * (M * u) + t) = 200 * u * (r * M) + 100 * (r * t) := by ring
    rw [e3, hrM] at h
    linarith
  have hlo : -(100 * r + 200 * u + 100 * t) ≤ q - m := by
    rw [hqm]
    have h := mul_le_mul_of_nonneg_left hd_lo h100r
    have e3 : 100 * r * -(1 + 2 * (M * u) + t)
        = -(100 * r + 200 * u * (r * M) + 100 * (r * t)) := by ring
    rw [e3, hrM] at h
    linarith
  constructor <;> linarith [h3.1, h3.2]

/-- Error of the round trip on exact magnitudes: m percent of M, truncated, and back. -/
theorem roundtrip_error (m : ℚ) (M : ℕ) (hm0 : 0 ≤ m) (hm : m ≤ 100) (hM0 : 0 < M)
    (hM : M ≤ 2 ^ 53) (c : ℤ) (hc : c = ⌊roundMag (roundMag (m / 100) * (M : ℚ))⌋) :
    0 ≤ c ∧ c ≤ M ∧
      |roundMag (((100 * c : ℤ) : ℚ) / ((M : ℤ) : ℚ)) - m| ≤ 100 / (M : ℚ) + 1 / 2 ^ 44 := by
  have hMq : (1 : ℚ) ≤ (M : ℚ) := by exact_mod_cast hM0
  have hMpos : (0 : ℚ) < (M : ℚ) := by linarith
  have ha0 : 0 ≤ m / 100 := by positivity
  have ha1 : m / 100 ≤ 1 := by rw [div_le_iff₀ (by norm_num)]; linarith
  have hx0 : 0 ≤ roundMag (m / 100) := roundMag_nonneg ha0
  have hx1 : roundMag (m / 100) ≤ 1 := by
    have := roundMag_mono ha0 ha1
    rwa [roundMag_one] at this
  have h1 : |roundMag (m / 100) - m / 100| ≤ 2 ^ (-53 : ℤ) := by
    have := abs_roundMag_sub_le_of_le ha0 ha1
    rw [ulpExp_one] at this
    exact this
  have hxM0 : 0 ≤ roundMag (m / 100) * (M : ℚ) := mul_nonneg hx0 hMpos.le
  have hxM1 : roundMag (m / 100) * (M : ℚ) ≤ (M : ℚ) := by nlinarith
  have hy0 : 0 ≤ roundMag (roundMag (m / 100) * (M : ℚ)) := roundMag_nonneg hxM0
  have hyM : roundMag (roundMag (m / 100) * (M : ℚ)) ≤ (M : ℚ) :=
    roundMag_le_of_le_nat hxM0 hxM1 hM
  have h2 := abs_roundMag_sub_le_rel hxM0
  have hc1 : (c : ℚ) ≤ roundMag (roundMag (m / 100) * (M : ℚ)) := by
    rw [hc]; exact Int.floor_le _
  have hc2 : roundMag (roundMag (m / 100) * (M : ℚ)) < (c : ℚ) + 1 := by
    rw [hc]; exact Int.lt_floor_add_one _
  have hc0 : 0 ≤ c := by rw [hc]; exact Int.floor_nonneg.mpr hy0
  have hcM : c ≤ M := by
    rw [hc]
    have : ⌊roundMag (roundMag (m / 100) * (M : ℚ))⌋ ≤ ⌊((M : ℤ) : ℚ)⌋ :=
      Int.floor_mono (by simpa using hyM)
    simpa using this
  refine ⟨hc0, hcM, ?_⟩
  have hc0q : (0 : ℚ) ≤ (c : ℚ) := by exact_mod_cast hc0
  have hcMq : (c : ℚ) ≤ (M : ℚ) := by exact_mod_cast hcM
  have hqe : ((100 * c : ℤ) : ℚ) / ((M : ℤ) : ℚ) = 100 * (1 / (M : ℚ)) * (c : ℚ) := by
    push_cast; ring
  have hq0 : 0 ≤ ((100 * c : ℤ) : ℚ) / ((M : ℤ) : ℚ) := by rw [hqe]; positivity
  have hq1 : ((100 * c : ℤ) : ℚ) / ((M : ℤ) : ℚ) ≤ 100 := by
    rw [div_le_iff₀ (by simpa using hMpos)]; push_cast; linarith
  have h3 : |roundMag (((100 * c : ℤ) : ℚ) / ((M : ℤ) : ℚ)) - ((100 * c : ℤ) : ℚ) / ((M : ℤ) : ℚ)|
      ≤ 64 * 2 ^ (-53 : ℤ) := by
    have := abs_roundMag_sub_le_of_le hq0 hq1
    rw [ulpExp_hundred] at this
    have e : (2 : ℚ) ^ ((-46 : ℤ) - 1) = 64 * 2 ^ (-53 : ℤ) := by norm_num
    rw [e] at this
    exact this
  have key := roundtrip_arith m (M : ℚ) (roundMag (m / 100))
    (roundMag (roundMag (m / 100) * (M : ℚ))) (c : ℚ)
    (roundMag (((100 * c : ℤ) : ℚ) / ((M : ℤ) : ℚ))) (((100 * c : ℤ) : ℚ) / ((M : ℤ) : ℚ))
    (2 ^ (-53 : ℤ)) (2 ^ (-1075 : ℤ)) (1 / (M : ℚ)) hMq (by positivity) (by positivity)
    (zpow_le_zpow_right₀ (by norm_num) (by norm_num)) (by positivity) (by field_simp)
    hx1 h1 h2 hc1 hc2 hqe h3
  have e100 : 100 / (M : ℚ) = 100 * (1 / (M : ℚ)) := by ring
  have e44 : (1 : ℚ) / 2 ^ 44 = 512 * 2 ^ (-53 : ℤ) := by norm_num
  rw [e100, e44]
  exact key

end F64

open F64 Brightness

theorem isFloat_29 : (fin false 29).IsFloat :=
  ⟨29, 0, by norm_num, by norm_num, by norm_num, by norm_num⟩

theorem isFloat_70 : (fin false 70).IsFloat :=
  ⟨70, 0, by norm_num, by norm_num, by norm_num, by norm_num⟩

theorem isFloat_100 : (fin false 100).IsFloat :=
  ⟨100, 0, by norm_num, by norm_num, by norm_num, by norm_num⟩

theorem isFloat_201_half : (fin false (201 / 2)).IsFloat :=
  ⟨201, -1, by norm_num, by norm_num, by norm_num, by norm_num⟩

theorem eval_trunc_201_half (c : ℤ) :
    truncToZero (Brightness.scaled ⟨c, 100⟩ (fin false (201 / 2))).toRat = 100 := by
  rw [eval_scaled_201_half]
  have hfl : ⌊(7072058789855231 / 2 ^ 46 : ℚ)⌋ = 100 := by
    rw [Int.floor_eq_iff]; constructor <;> norm_num
  simp only [toRat, truncToZero, Bool.false_eq_true, if_false]
  rw [if_pos (by positivity), hfl]

/-- C1 (code defect): with Max = 100 and p = 29 SetPercent stores 28, although 29 percent of
100, the exact (p / 100) × Max truncated toward zero, is 29: the quotient 29 / 100. and the
product are each rounded to float64 before the conversion to int. -/
theorem setPercent_29_of_100_stores_28 :
    (fin false 29).IsFloat ∧
      (Brightness.SetPercent indefiniteInteger ⟨50, 100⟩ (fin false 29)).Current = 28 ∧
      Brightness.exactRaw (fin false 29).toRat 100 = 29 ∧
      (Brightness.SetPercent indefiniteInteger ⟨50, 100⟩ (fin false 29)).Current
        ≠ Brightness.exactRaw (fin false 29).toRat 100 := by
  have h1 : (Brightness.SetPercent indefiniteInteger ⟨50, 100⟩ (fin false 29)).Current = 28 := by
    rw [eval_setPercent_29]
  have h2 : Brightness.exactRaw (fin false 29).toRat 100 = 29 := by
    simp only [exactRaw, toRat, truncToZero]
    norm_num
  refine ⟨isFloat_29, h1, h2, ?_⟩
  rw [h1, h2]
  decide

/-- C8: SetPercent twice with the same percentage gives the same Brightness as once. -/
theorem setPercent_idempotent (indef : F64 → ℤ) (b : Brightness) (p : F64) :
    (b.SetPercent indef p).SetPercent indef p = b.SetPercent indef p ∧
      ((b.SetPercent indef p).SetPercent indef p).Current = (b.SetPercent indef p).Current ∧
      ((b.SetPercent indef p).SetPercent indef p).Max = (b.SetPercent indef p).Max :=
  ⟨rfl, rfl, rfl⟩

/-- C9 (as stated, refuted): Max = 2^53 + 3 is not a float64; float64(Max) is 2^53 + 4, and
SetPercent(100) stores that, above Max. -/
theorem setPercent_range_counterexample :
    (fin false 100).IsFloat ∧ (0 : ℚ) ≤ (fin false 100).toRat ∧ (fin false 100).toRat ≤ 100 ∧
      (0 : ℤ) < 9007199254740995 ∧ (9007199254740995 : ℤ) < 2 ^ 63 ∧
      ¬ (Brightness.SetPercent indefiniteInteger ⟨0, 9007199254740995⟩ (fin false 100)).Current
        ≤ (Brightness.mk 0 9007199254740995).Max := by
  refine ⟨isFloat_100, by simp [toRat], by simp [toRat], by decide, by decide, ?_⟩
  rw [eval_setPercent_big]
  decide

/-- C9 (amended): for 0 < Max ≤ 2^53 and a float64 p with 0 ≤ p ≤ 100, SetPercent leaves
0 ≤ Current ≤ Max. -/
theorem setPercent_preserves_range (indef : F64 → ℤ) (b : Brightness) (p : F64)
    (hp : p.IsFloat) (hfin : p.IsFinite) (h0 : 0 ≤ p.toRat) (h100 : p.toRat ≤ 100)
    (hmax : 0 < b.Max) (hM : b.Max ≤ 2 ^ 53) :
    0 ≤ (b.SetPercent indef p).Current ∧ (b.SetPercent indef p).Current ≤ b.Max :=
  setPercent_in_range_aux indef b p hp hfin h0 h100 hmax hM

/-- Witness for C9 (amended): Max = 100 and p = 29. -/
theorem setPercent_preserves_range_witness :
    (fin false 29).IsFloat ∧ (fin false 29).IsFinite ∧ (0 : ℚ) ≤ (fin false 29).toRat ∧
      (fin false 29).toRat ≤ 100 ∧ (0 : ℤ) < (Brightness.mk 50 100).Max ∧
      (Brightness.mk 50 100).Max ≤ 2 ^ 53 ∧
      (0 ≤ (Brightness.SetPercent indefiniteInteger ⟨50, 100⟩ (fin false 29)).Current ∧
        (Brightness.SetPercent indefiniteInteger ⟨50, 100⟩ (fin false 29)).Current
          ≤ (Brightness.mk 50 100).Max) :=
  ⟨isFloat_29, trivial, by simp [toRat], by simp [toRat]; norm_num, by decide, by decide,
    setPercent_preserves_range indefiniteInteger ⟨50, 100⟩ (fin false 29) isFloat_29 trivial
      (by simp [toRat]) (by simp [toRat]; norm_num) (by decide) (by decide)⟩

open F64 Brightness

/-- C2 (as stated, refuted): with Current = Max = 360287970189643, just above 2^55 / 100, the
product 100 * Current is rounded up and Percent is 100 + 2^-46, above 100. -/
theorem percent_bound_counterexample :
    (0 : ℤ) < (Brightness.mk 360287970189643 360287970189643).Max ∧
      (0 : ℤ) ≤ (Brightness.mk 360287970189643 360287970189643).Current ∧
      (Brightness.mk 360287970189643 360287970189643).Current
        ≤ (Brightness.mk 360287970189643 360287970189643).Max ∧
      (Brightness.mk 360287970189643 360287970189643).Max < 2 ^ 63 ∧
      (Brightness.Percent ⟨360287970189643, 360287970189643⟩).IsFinite ∧
      ¬ (Brightness.Percent ⟨360287970189643, 360287970189643⟩).toRat ≤ 100 := by
  refine ⟨by decide, by decide, by decide, by decide, ?_, ?_⟩
  · rw [eval_percent_big]; trivial
  · rw [eval_percent_big]
    simp only [toRat, Bool.false_eq_true, if_false]
    norm_num

/-- C2 (amended): for Max > 0, 0 ≤ Current ≤ Max and 100 * Max ≤ 2^55, Percent is the float64
nearest to the exact 100 × Current / Max (one rounding, ties to even), within 2^-47 of it,
and 0 ≤ Percent ≤ 100. -/
theorem percent_bounds (b : Brightness) (hmax : 0 < b.Max) (hM : 100 * b.Max ≤ 2 ^ 55)
    (hc0 : 0 ≤ b.Current) (hc : b.Current ≤ b.Max) :
    b.Percent = F64.round false ((100 * (b.Current : ℚ)) / (b.Max : ℚ)) ∧
      b.Percent.IsFinite ∧
      |b.Percent.toRat - 100 * (b.Current : ℚ) / (b.Max : ℚ)| ≤ 1 / 2 ^ 47 ∧
      0 ≤ b.Percent.toRat ∧ b.Percent.toRat ≤ 100 := by
  obtain ⟨h1, h2⟩ := percent_eq_round b hmax hM hc0 hc
  have e : ((100 * b.Current : ℤ) : ℚ) / ((b.Max : ℤ) : ℚ)
      = 100 * (b.Current : ℚ) / (b.Max : ℚ) := by push_cast; ring
  rw [e] at h1 h2
  have hMq : (0 : ℚ) < (b.Max : ℚ) := by exact_mod_cast hmax
  have hcq : (0 : ℚ) ≤ (b.Current : ℚ) := by exact_mod_cast hc0
  have hcM : (b.Current : ℚ) ≤ (b.Max : ℚ) := by exact_mod_cast hc
  have hq0 : 0 ≤ 100 * (b.Current : ℚ) / (b.Max : ℚ) := by positivity
  have hq1 : 100 * (b.Current : ℚ) / (b.Max : ℚ) ≤ 100 := by
    rw [div_le_iff₀ hMq]; linarith
  have herr := abs_roundMag_sub_le_of_le hq0 hq1
  rw [ulpExp_hundred] at herr
  have e47 : (2 : ℚ) ^ ((-46 : ℤ) - 1) = 1 / 2 ^ 47 := by norm_num
  rw [e47] at herr
  refine ⟨?_, ?_, ?_, ?_, ?_⟩
  · rw [h1, round_eq_fin (by linarith [two_pow_53_lt])]
  · rw [h1]; trivial
  · rw [h1]; simpa [toRat] using herr
  · rw [h1]; simpa [toRat] using roundMag_nonneg hq0
  · rw [h1]; simpa [toRat] using h2

/-- Witness for C2 (amended): Current = 50 and Max = 100. -/
theorem percent_bounds_witness :
    (0 : ℤ) < (Brightness.mk 50 100).Max ∧ 100 * (Brightness.mk 50 100).Max ≤ 2 ^ 55 ∧
      (0 : ℤ) ≤ (Brightness.mk 50 100).Current ∧
      (Brightness.mk 50 100).Current ≤ (Brightness.mk 50 100).Max ∧
      ((Brightness.mk 50 100).Percent
          = F64.round false ((100 * (((Brightness.mk 50 100).Current : ℤ) : ℚ))
            / (((Brightness.mk 50 100).Max : ℤ) : ℚ)) ∧
        (Brightness.mk 50 100).Percent.IsFinite ∧
        |(Brightness.mk 50 100).Percent.toRat - 100 * (((Brightness.mk 50 100).Current : ℤ) : ℚ)
            / (((Brightness.mk 50 100).Max : ℤ) : ℚ)| ≤ 1 / 2 ^ 47 ∧
        0 ≤ (Brightness.mk 50 100).Percent.toRat ∧ (Brightness.mk 50 100).Percent.toRat ≤ 100) :=
  ⟨by decide, by decide, by decide, by decide,
    percent_bounds ⟨50, 100⟩ (by decide) (by decide) (by decide) (by decide)⟩

/-- C3 (as stated, refuted): with Max = 90 and p = 70 the stored value is 62 and Percent is
the float64 below 6200 / 90, so the distance to 70 exceeds 100 / 90. -/
theorem roundtrip_bound_counterexample :
    (fin false 70).IsFloat ∧ (0 : ℚ) ≤ (fin false 70).toRat ∧ (fin false 70).toRat ≤ 100 ∧
      (0 : ℤ) < (Brightness.mk 50 90).Max ∧
      (Brightness.SetPercent indefiniteInteger ⟨50, 90⟩ (fin false 70)).Percent.IsFinite ∧
      ¬ |(Brightness.SetPercent indefiniteInteger ⟨50, 90⟩ (fin false 70)).Percent.toRat
          - (fin false 70).toRat| ≤ 100 / (((Brightness.mk 50 90).Max : ℤ) : ℚ) := by
  refine ⟨isFloat_70, by simp [toRat], by simp [toRat]; norm_num, by decide, ?_, ?_⟩
  · rw [eval_setPercent_70, eval_percent_62_90]; trivial
  · rw [eval_setPercent_70, eval_percent_62_90]
    simp only [toRat, Bool.false_eq_true, if_false]
    rw [abs_le]
    norm_num

/-- C3 (amended): for 0 < Max with 100 * Max ≤ 2^55 and a float64 p with 0 ≤ p ≤ 100, the
percentage read back after SetPercent(p) is finite and differs from p by at most
100 / Max + 2^-44. -/
theorem roundtrip_within (indef : F64 → ℤ) (b : Brightness) (p : F64) (hp : p.IsFloat)
    (hfin : p.IsFinite) (h0 : 0 ≤ p.toRat) (h100 : p.toRat ≤ 100) (hmax : 0 < b.Max)
    (hM : 100 * b.Max ≤ 2 ^ 55) :
    (b.SetPercent indef p).Percent.IsFinite ∧
      |(b.SetPercent indef p).Percent.toRat - p.toRat| ≤ 100 / (b.Max : ℚ) + 1 / 2 ^ 44 := by
  obtain ⟨s, m, rfl⟩ := finite_cases hfin
  have hm0 : 0 ≤ m := hp.nonneg
  have hs : s = true → m = 0 := by
    intro hs; subst hs
    simp only [toRat, if_true] at h0
    linarith
  have hm : m ≤ 100 := by
    cases s with
    | true => rw [hs rfl]; norm_num
    | false => simpa [toRat] using h100
  have hpm : (fin s m).toRat = m := by
    cases s with
    | true => rw [hs rfl]; simp [toRat]
    | false => simp [toRat]
  have hM53 : b.Max ≤ 2 ^ 53 := by omega
  obtain ⟨n, hn⟩ := Int.eq_ofNat_of_zero_le hmax.le
  have hn0 : 0 < n := by
    have : (0 : ℤ) < (n : ℤ) := by rw [← hn]; exact hmax
    exact_mod_cast this
  have hn53 : n ≤ 2 ^ 53 := by
    have : (n : ℤ) ≤ 2 ^ 53 := by rw [← hn]; exact hM53
    exact_mod_cast this
  obtain ⟨y, hy, hy0, hyM, hyz⟩ := scaled_in_range b s m hm0 hm hmax.le hM53
  obtain ⟨-, hyv⟩ := scaled_fin_eq hmax.le hM53 hy
  have hfM : ⌊y⌋ ≤ b.Max := by
    have : ⌊y⌋ ≤ ⌊(b.Max : ℚ)⌋ := Int.floor_mono hyM
    simpa using this
  have hf0 : 0 ≤ ⌊y⌋ := Int.floor_nonneg.mpr hy0
  have hcur : (b.SetPercent indef (fin s m)).Current = ⌊y⌋ := by
    show toInt indef (b.scaled (fin s m)) = _
    rw [hy, toInt_fin]
    · cases s with
      | true =>
        have : y = 0 := hyz (hs rfl)
        subst this
        simp
      | false => simp
    · split_ifs <;> omega
    · split_ifs <;> omega
  have hmaxeq : (b.SetPercent indef (fin s m)).Max = b.Max := rfl
  obtain ⟨hc0, hcM, herr⟩ := roundtrip_error m n hm0 hm hn0 hn53 ⌊y⌋
    (by rw [hyv, hn, Int.cast_natCast])
  obtain ⟨h1, h2⟩ := percent_eq_round (b.SetPercent indef (fin s m))
    (by rw [hmaxeq]; exact hmax) (by rw [hmaxeq]; exact hM) (by rw [hcur]; exact hf0)
    (by rw [hcur, hmaxeq]; exact hfM)
  rw [hcur, hmaxeq, hn] at h1
  rw [h1, hpm, hn]
  refine ⟨trivial, ?_⟩
  simpa [toRat] using herr

/-- Witness for C3 (amended): Max = 90 and p = 70. -/
theorem roundtrip_within_witness :
    (fin false 70).IsFloat ∧ (fin false 70).IsFinite ∧ (0 : ℚ) ≤ (fin false 70).toRat ∧
      (fin false 70).toRat ≤ 100 ∧ (0 : ℤ) < (Brightness.mk 50 90).Max ∧
      100 * (Brightness.mk 50 90).Max ≤ 2 ^ 55 ∧
      ((Brightness.SetPercent indefiniteInteger ⟨50, 90⟩ (fin false 70)).Percent.IsFinite ∧
        |(Brightness.SetPercent indefiniteInteger ⟨50, 90⟩ (fin false 70)).Percent.toRat
            - (fin false 70).toRat|
          ≤ 100 / (((Brightness.mk 50 90).Max : ℤ) : ℚ) + 1 / 2 ^ 44) :=
  ⟨isFloat_70, trivial, by simp [toRat], by simp [toRat]; norm_num, by decide, by decide,
    roundtrip_within indefiniteInteger ⟨50, 90⟩ (fin false 70) isFloat_70 trivial
      (by simp [toRat]) (by simp [toRat]; norm_num) (by decide) (by decide)⟩

open F64 Brightness

/-- C4 (as stated, refuted): with Max = 100 the percentage 100.5, above 100, is accepted and
stores 100, inside [0, Max]. -/
theorem setPercent_out_of_range_counterexample :
    (fin false (201 / 2)).IsFloat ∧ (100 : ℚ) < (fin false (201 / 2)).toRat ∧
      (0 : ℤ) < (Brightness.mk 50 100).Max ∧
      (0 ≤ (Brightness.SetPercent indefiniteInteger ⟨50, 100⟩ (fin false (201 / 2))).Current ∧
        (Brightness.SetPercent indefiniteInteger ⟨50, 100⟩ (fin false (201 / 2))).Current
          ≤ (Brightness.mk 50 100).Max) := by
  refine ⟨isFloat_201_half, by simp [toRat]; norm_num, by decide, ?_, ?_⟩
  · rw [eval_setPercent_201_half]; decide
  · rw [eval_setPercent_201_half]

/-- C4 (amended): SetPercent validates nothing. For 0 < Max < 2^53 and any float64 p whose
product (p / 100.) * float64(Max) is finite with a truncation that fits a 64-bit int, Current
is below 0 exactly when that product is at most -1 and above Max exactly when it is at least
Max + 1; this is the case whenever p ≤ -100, respectively p ≥ 200, but not for every p outside
[0, 100]. -/
theorem setPercent_unvalidated (indef : F64 → ℤ) (b : Brightness) (p : F64) (hp : p.IsFloat)
    (hmax : 0 < b.Max) (hM : b.Max < 2 ^ 53) (hfin : (b.scaled p).IsFinite)
    (hlo : -2 ^ 63 ≤ truncToZero (b.scaled p).toRat)
    (hhi : truncToZero (b.scaled p).toRat < 2 ^ 63) :
    ((b.SetPercent indef p).Current < 0 ↔ (b.scaled p).toRat ≤ -1) ∧
      (b.Max < (b.SetPercent indef p).Current ↔ (b.Max : ℚ) + 1 ≤ (b.scaled p).toRat) ∧
      (p.toRat ≤ -100 → (b.SetPercent indef p).Current < 0) ∧
      (200 ≤ p.toRat → b.Max < (b.SetPercent indef p).Current) := by
  have hcur := setPercent_current_eq indef b p hp hfin hlo hhi
  have i1 : (b.SetPercent indef p).Current < 0 ↔ (b.scaled p).toRat ≤ -1 := by
    rw [hcur]; exact truncToZero_neg_iff _
  have i2 : b.Max < (b.SetPercent indef p).Current ↔ (b.Max : ℚ) + 1 ≤ (b.scaled p).toRat := by
    rw [hcur]; exact truncToZero_gt_iff _ hmax.le
  exact ⟨i1, i2, fun h => i1.mpr (scaled_of_le_neg_hundred hmax hM hp hfin h),
    fun h => i2.mpr (scaled_of_ge_two_hundred hmax hM hp hfin h)⟩

/-- Witness for C4 (amended): Max = 100 and p = 100.5. -/
theorem setPercent_unvalidated_witness :
    (fin false (201 / 2)).IsFloat ∧ (0 : ℤ) < (Brightness.mk 50 100).Max ∧
      (Brightness.mk 50 100).Max < 2 ^ 53 ∧
      (Brightness.scaled ⟨50, 100⟩ (fin false (201 / 2))).IsFinite ∧
      -2 ^ 63 ≤ truncToZero (Brightness.scaled ⟨50, 100⟩ (fin false (201 / 2))).toRat ∧
      truncToZero (Brightness.scaled ⟨50, 100⟩ (fin false (201 / 2))).toRat < 2 ^ 63 ∧
      (((Brightness.SetPercent indefiniteInteger ⟨50, 100⟩ (fin false (201 / 2))).Current < 0 ↔
          (Brightness.scaled ⟨50, 100⟩ (fin false (201 / 2))).toRat ≤ -1) ∧
        ((Brightness.mk 50 100).Max
            < (Brightness.SetPercent indefiniteInteger ⟨50, 100⟩ (fin false (201 / 2))).Current ↔
          (((Brightness.mk 50 100).Max : ℤ) : ℚ) + 1
            ≤ (Brightness.scaled ⟨50, 100⟩ (fin false (201 / 2))).toRat) ∧
        ((fin false (201 / 2)).toRat ≤ -100 →
          (Brightness.SetPercent indefiniteInteger ⟨50, 100⟩ (fin false (201 / 2))).Current < 0) ∧
        (200 ≤ (fin false (201 / 2)).toRat → (Brightness.mk 50 100).Max
          < (Brightness.SetPercent indefiniteInteger ⟨50, 100⟩ (fin false (201 / 2))).Current)) :=
  ⟨isFloat_201_half, by decide, by decide, by rw [eval_scaled_201_half]; trivial,
    by rw [eval_trunc_201_half]; decide, by rw [eval_trunc_201_half]; decide,
    setPercent_unvalidated indefiniteInteger ⟨50, 100⟩ (fin false (201 / 2)) isFloat_201_half
      (by decide) (by decide) (by rw [eval_scaled_201_half]; trivial)
      (by rw [eval_trunc_201_half]; decide) (by rw [eval_trunc_201_half]; decide)⟩

namespace Backlight

theorem foldl_append_name (es : List FileInfo) (init : List String) :
    es.foldl (fun acc d => acc ++ [d.Name]) init = init ++ es.map FileInfo.Name := by
  induction es generalizing init with
  | nil => simp
  | cons e es ih => simp [ih]

theorem listBacklights_ok (es : List FileInfo) :
    listBacklights (.ok es)
      = if es = [] then .error .noBacklights else .ok (es.map FileInfo.Name) := by
  unfold listBacklights
  simp only [foldl_append_name, List.nil_append, List.length_map]
  cases es with
  | nil => simp
  | cons e es => simp

theorem sorted_getElem?_le {α : Type} [LinearOrder α] {x : List α}
    (hs : x.Sorted (· ≤ ·)) {k l : ℕ} (hkl : k ≤ l) {a b : α} (ha : x[k]? = some a)
    (hb : x[l]? = some b) : a ≤ b := by
  rcases Nat.eq_or_lt_of_le hkl with h | h
  · subst h
    rw [ha] at hb
    injection hb with hb
    rw [hb]
  · obtain ⟨hk, rfl⟩ := List.getElem?_eq_some.mp ha
    obtain ⟨hl, rfl⟩ := List.getElem?_eq_some.mp hb
    exact List.pairwise_iff_getElem.mp hs k l hk hl h

theorem binarySearchLoop_spec {α : Type} [LinearOrder α] (x : List α) (t : α)
    (hs : x.Sorted (· ≤ ·)) :
    ∀ (n i j : ℕ), j - i = n → i ≤ j → j ≤ x.length →
      (∀ k, k < i → ∀ v, x[k]? = some v → v < t) →
      (∀ k, j ≤ k → ∀ v, x[k]? = some v → ¬ v < t) →
      ∃ r, binarySearchLoop x t i j = some r ∧ r ≤ x.length ∧
        (∀ k, k < r → ∀ v, x[k]? = some v → v < t) ∧
        (∀ k, r ≤ k → ∀ v, x[k]? = some v → ¬ v < t) := by
  intro n
  induction n using Nat.strong_induction_on with
  | _ n ih =>
    intro i j hn hij hj hlo hhi
    rw [binarySearchLoop]
    by_cases hlt : i < j
    · rw [if_pos hlt]
      have hh : (i + j) / 2 < x.length := by omega
      have hget : x[(i + j) / 2]? = some (x[(i + j) / 2]) := List.getElem?_eq_getElem hh
      rw [hget]
      simp only []
      by_cases hv : x[(i + j) / 2] < t
      · rw [if_pos hv]
        apply ih (j - ((i + j) / 2 + 1)) (by omega) _ _ rfl (by omega) hj _ hhi
        intro k hk v hkv
        have : v ≤ x[(i + j) / 2] := sorted_getElem?_le hs (by omega) hkv hget
        exact lt_of_le_of_lt this hv
      · rw [if_neg hv]
        apply ih ((i + j) / 2 - i) (by omega) _ _ rfl (by omega) (by omega) hlo
        intro k hk v hkv
        have : x[(i + j) / 2] ≤ v := sorted_getElem?_le hs hk hget hkv
        intro hvt
        exact hv (lt_of_le_of_lt this hvt)
    · rw [if_neg hlt]
      have : i = j := by omega
      subst this
      exact ⟨i, rfl, hj, hlo, hhi⟩

theorem binarySearch_sorted {α : Type} [LinearOrder α] (x : List α) (t : α)
    (hs : x.Sorted (· ≤ ·)) :
    ∃ i found, BinarySearch x t = some (i, found) ∧ (found = true ↔ t ∈ x) := by
  obtain ⟨r, hr, hrl, hlo, hhi⟩ := binarySearchLoop_spec x t hs x.length 0 x.length rfl
    (Nat.zero_le _) le_rfl (by intro k hk; omega)
    (by
      intro k hk v hkv
      have := (List.getElem?_eq_some.mp hkv).1
      omega)
  refine ⟨r, _, by unfold BinarySearch; rw [hr]; rfl, ?_⟩
  simp only [Bool.and_eq_true, decide_eq_true_eq]
  constructor
  · intro h
    exact List.getElem?_mem h.2
  · intro hmem
    obtain ⟨k, hk, hkt⟩ := List.getElem_of_mem hmem
    have hkt2 : x[k]? = some t := by rw [List.getElem?_eq_getElem hk, hkt]
    have hrk : r ≤ k := by
      by_contra hcon
      exact lt_irrefl t (hlo k (by omega) t hkt2)
    have hrlt : r < x.length := by omega
    have hgr : x[r]? = some (x[r]) := List.getElem?_eq_getElem hrlt
    have h1 : x[r] ≤ t := sorted_getElem?_le hs hrk hgr hkt2
    have h2 : ¬ x[r] < t := hhi r le_rfl _ hgr
    have h3 : x[r] = t := le_antisymm h1 (not_lt.mp h2)
    exact ⟨hrlt, by rw [hgr, h3]⟩

/-- A reported hit is a genuine element, sorted or not. -/
theorem binarySearch_found_mem {α : Type} [LinearOrder α] (x : List α) (t : α) (i : ℕ)
    (h : BinarySearch x t = some (i, true)) : t ∈ x := by
  unfold BinarySearch at h
  cases hr : binarySearchLoop x t 0 x.length with
  | none => rw [hr] at h; simp at h
  | some r =>
    rw [hr] at h
    simp only [Option.map_some', Option.some.injEq, Prod.mk.injEq, Bool.and_eq_true,
      decide_eq_true_eq] at h
    exact List.getElem?_mem h.2.2

end Backlight

namespace Backlight

theorem readLight_opens (w : World) (name : String) :
    Call.openFile (brightnessPath name) ∈ (readLight w name).2 := by
  unfold readLight
  split
  · simp
  · split <;> simp

theorem readLight_no_write (w : World) (name : String) :
    ∀ c ∈ (readLight w name).2, c.isWrite = false := by
  unfold readLight
  split
  · simp [Call.isWrite]
  · split <;> simp [Call.isWrite]

theorem main_not_found (w : World) (name : String) (args : List String) (lights : List String)
    (i : ℕ) (hl : listBacklights w.readDir = .ok lights) (hn : name ≠ "")
    (hb : BinarySearch lights name = some (i, false)) :
    main w name args = ⟨1, [.readDir, .stderr (.notFound name lights)]⟩ := by
  unfold main
  rw [hl]
  simp only [if_neg hn, hb]

theorem main_found_opens (w : World) (name : String) (args : List String)
    (lights : List String) (i : ℕ) (hl : listBacklights w.readDir = .ok lights)
    (hn : name ≠ "") (hb : BinarySearch lights name = some (i, true)) :
    Call.openFile (brightnessPath name) ∈ (main w name args).trace := by
  have ho := readLight_opens w name
  unfold main
  rw [hl]
  simp only [if_neg hn, hb]
  rcases hrl : readLight w name with ⟨r, opened⟩
  rw [hrl] at ho
  simp only at ho
  cases r with
  | error err => simp [ho]
  | ok brightness =>
    simp only
    cases args with
    | nil => simp [ho]
    | cons arg rest =>
      simp only
      cases w.sscanFloat arg with
      | error err => simp [ho]
      | ok percent =>
        simp only
        rcases writeLight w name (brightness.SetPercent w.indef percent) with ⟨r3, written⟩
        cases r3 <;> simp [ho]

theorem main_write_only_if (w : World) (name : String) (args : List String)
    (h : ∃ c ∈ (main w name args).trace, c.isWrite = true) :
    name ≠ "" ∧ ∃ lights, listBacklights w.readDir = .ok lights ∧ name ∈ lights ∧
      (∃ b, (readLight w name).1 = .ok b) ∧
      ∃ arg rest, args = arg :: rest ∧ ∃ p, w.sscanFloat arg = .ok p := by
  obtain ⟨c, hc, hcw⟩ := h
  unfold main at hc
  cases hl : listBacklights w.readDir with
  | error err =>
    rw [hl] at hc
    simp at hc
    rcases hc with rfl | rfl <;> simp [Call.isWrite] at hcw
  | ok lights =>
    rw [hl] at hc
    simp only at hc
    by_cases hn : name = ""
    · rw [if_pos hn] at hc
      simp at hc
      rcases hc with rfl | rfl | rfl <;> simp [Call.isWrite] at hcw
    · rw [if_neg hn] at hc
      refine ⟨hn, lights, rfl, ?_⟩
      cases hb : BinarySearch lights name with
      | none =>
        rw [hb] at hc
        simp at hc
        subst hc
        simp [Call.isWrite] at hcw
      | some res =>
        obtain ⟨i, found⟩ := res
        rw [hb] at hc
        cases found with
        | false =>
          simp at hc
          rcases hc with rfl | rfl <;> simp [Call.isWrite] at hcw
        | true =>
          refine ⟨binarySearch_found_mem lights name i hb, ?_⟩
          have hnw := readLight_no_write w name
          simp only at hc
          rcases hrl : readLight w name with ⟨r, opened⟩
          rw [hrl] at hc hnw
          simp only at hnw
          cases r with
          | error err =>
            exfalso
            simp at hc
            rcases hc with rfl | hc | rfl
            · simp [Call.isWrite] at hcw
            · rw [hnw c hc] at hcw; exact Bool.noConfusion hcw
            · simp [Call.isWrite] at hcw
          | ok brightness =>
            refine ⟨⟨brightness, rfl⟩, ?_⟩
            simp only at hc
            cases args with
            | nil =>
              exfalso
              simp at hc
              rcases hc with rfl | hc | rfl
              · simp [Call.isWrite] at hcw
              · rw [hnw c hc] at hcw; exact Bool.noConfusion hcw
              · simp [Call.isWrite] at hcw
            | cons arg rest =>
              refine ⟨arg, rest, rfl, ?_⟩
              simp only at hc
              cases hs : w.sscanFloat arg with
              | error err =>
                exfalso
                rw [hs] at hc
                simp at hc
                rcases hc with rfl | hc | rfl | rfl
                · simp [Call.isWrite] at hcw
                · rw [hnw c hc] at hcw; exact Bool.noConfusion hcw
                · simp [Call.isWrite] at hcw
                · simp [Call.isWrite] at hcw
              | ok p => exact ⟨p, rfl⟩

end Backlight

namespace Backlight

theorem digitChar_props (d : ℕ) (hd : d < 10) :
    (Nat.digitChar d).isDigit = true ∧ digitVal (Nat.digitChar d) = d ∧
      isSpace (Nat.digitChar d) = false ∧ Nat.digitChar d ≠ '\r' ∧ Nat.digitChar d ≠ '\n' ∧
      Nat.digitChar d ≠ '+' ∧ Nat.digitChar d ≠ '-' := by
  interval_cases d <;> decide

theorem digits_all_isDigit (ds : List ℕ) (h : ∀ d ∈ ds, d < 10) :
    ∀ c ∈ ds.map Nat.digitChar, c.isDigit = true := by
  intro c hc
  obtain ⟨d, hd, rfl⟩ := List.mem_map.mp hc
  exact (digitChar_props d (h d hd)).1

theorem foldr_digits (ds : List ℕ) (h : ∀ d ∈ ds, d < 10) :
    (ds.map Nat.digitChar).foldr (fun c acc => 10 * acc + digitVal c) 0 = Nat.ofDigits 10 ds := by
  induction ds with
  | nil => simp [Nat.ofDigits]
  | cons d ds ih =>
    have hd := (digitChar_props d (h d (List.mem_cons_self _ _))).2.1
    have ih2 := ih (fun e he => h e (List.mem_cons_of_mem _ he))
    simp only [List.map_cons, List.foldr_cons, ih2, hd, Nat.ofDigits_cons]
    ring

theorem formatNat_digits (n : ℕ) :
    ∃ ds : List ℕ, ds ≠ [] ∧ (∀ d ∈ ds, d < 10) ∧ formatNat n = ds.reverse.map Nat.digitChar ∧
      Nat.ofDigits 10 ds = n := by
  by_cases h0 : n = 0
  · subst h0
    refine ⟨[0], by simp, by simp, by simp [formatNat]; rfl, by simp [Nat.ofDigits]⟩
  · refine ⟨Nat.digits 10 n, ?_, ?_, ?_, Nat.ofDigits_digits 10 n⟩
    · intro h
      exact h0 (Nat.digits_eq_nil_iff_eq_zero.mp h)
    · intro d hd
      exact Nat.digits_lt_base (by norm_num) hd
    · simp [formatNat, h0]

theorem foldl_formatNat (n : ℕ) :
    (formatNat n).foldl (fun acc c => 10 * acc + digitVal c) 0 = n := by
  obtain ⟨ds, -, hlt, hf, hv⟩ := formatNat_digits n
  rw [hf, List.map_reverse, List.foldl_reverse, foldr_digits ds hlt, hv]

end Backlight

namespace Backlight

theorem formatNat_cons (n : ℕ) :
    ∃ d ds, formatNat n = d :: ds ∧ (∀ c ∈ d :: ds, c.isDigit = true) ∧
      isSpace d = false ∧ d ≠ '\r' ∧ d ≠ '\n' ∧ d ≠ '+' ∧ d ≠ '-' := by
  obtain ⟨ds, hne, hlt, hf, -⟩ := formatNat_digits n
  have hall : ∀ c ∈ formatNat n, c.isDigit = true := by
    rw [hf]
    exact digits_all_isDigit ds.reverse (fun d hd => hlt d (List.mem_reverse.mp hd))
  have hne2 : ds.reverse ≠ [] := by simpa using hne
  obtain ⟨e, es, hes⟩ := List.exists_cons_of_ne_nil hne2
  have he : e < 10 := hlt e (List.mem_reverse.mp (by rw [hes]; exact List.mem_cons_self _ _))
  have hp := digitChar_props e he
  refine ⟨Nat.digitChar e, es.map Nat.digitChar, ?_, ?_, hp.2.2.1, hp.2.2.2.1, hp.2.2.2.2.1,
    hp.2.2.2.2.2.1, hp.2.2.2.2.2.2⟩
  · rw [hf, hes]; rfl
  · have : formatNat n = Nat.digitChar e :: es.map Nat.digitChar := by rw [hf, hes]; rfl
    rw [← this]; exact hall

theorem skipSpace_cons {c : Char} (cs : List Char) (h1 : c ≠ '\r') (h2 : c ≠ '\n')
    (h3 : isSpace c = false) : skipSpace (c :: cs) = .ok (c :: cs) := by
  simp [skipSpace, h1, h2, h3]

theorem parseInt_ok (neg : Bool) (digits : List Char) (i : ℤ)
    (h : (if neg then -((digits.foldl (fun acc c => 10 * acc + digitVal c) 0 : ℕ) : ℤ)
      else ((digits.foldl (fun acc c => 10 * acc + digitVal c) 0 : ℕ) : ℤ)) = i)
    (hlo : -2 ^ 63 ≤ i) (hhi : i < 2 ^ 63) : parseInt neg digits = .ok i := by
  unfold parseInt
  simp only [h]
  rw [if_pos ⟨hlo, hhi⟩]

theorem fscanInt_formatInt (n : ℤ) (hlo : -2 ^ 63 ≤ n) (hhi : n < 2 ^ 63) :
    fscanInt (formatInt n) = .ok n := by
  obtain ⟨d, ds, hf, hall, hsp, hr, hnl, hplus, hminus⟩ := formatNat_cons n.natAbs
  have htw : (d :: ds).takeWhile Char.isDigit = d :: ds :=
    List.takeWhile_eq_self_iff.mpr hall
  have hd : d.isDigit = true := hall d (List.mem_cons_self _ _)
  have hv := foldl_formatNat n.natAbs
  rw [hf] at hv
  unfold fscanInt formatInt
  by_cases hneg : n < 0
  · rw [if_pos hneg, skipSpace_cons _ (by decide) (by decide) (by decide)]
    simp only [scanNumber, hf, hd, htw]
    simp only [or_true, if_true, decide_True]
    rw [if_pos hd, htw]
    apply parseInt_ok _ _ _ _ hlo hhi
    simp only [if_true, hv]
    omega
  · rw [if_neg hneg, hf, skipSpace_cons _ hr hnl hsp]
    simp only [scanNumber, hplus, hminus, or_self, if_false, hd, htw, decide_False, if_true]
    apply parseInt_ok _ _ _ _ hlo hhi
    simp only [hv]
    simp
    omega

theorem formatInt_chars (n : ℤ) : ∀ c ∈ formatInt n, c = '-' ∨ c.isDigit = true := by
  obtain ⟨d, ds, hf, hall, -⟩ := formatNat_cons n.natAbs
  intro c hc
  unfold formatInt at hc
  split_ifs at hc
  · rcases List.mem_cons.mp hc with h | h
    · exact Or.inl h
    · rw [hf] at h; exact Or.inr (hall c h)
  · rw [hf] at hc; exact Or.inr (hall c hc)

end Backlight

namespace Backlight

theorem writeLight_creates (w : World) (name : String) (b : Brightness) :
    Call.createFile (brightnessPath name) ∈ (writeLight w name b).2 := by
  unfold writeLight
  split <;> simp

theorem main_writes_of_found (w : World) (name : String) (arg : String) (rest : List String)
    (lights : List String) (i : ℕ) (b : Brightness) (opened : List Call) (p : F64)
    (hl : listBacklights w.readDir = .ok lights) (hn : name ≠ "")
    (hb : BinarySearch lights name = some (i, true))
    (hr : readLight w name = (.ok b, opened)) (hs : w.sscanFloat arg = .ok p) :
    ∃ c ∈ (main w name (arg :: rest)).trace, c.isWrite = true := by
  refine ⟨Call.createFile (brightnessPath name), ?_, rfl⟩
  have hc := writeLight_creates w name (b.SetPercent w.indef p)
  unfold main
  rw [hl]
  simp only [if_neg hn, hb, hr, hs]
  rcases hw : writeLight w name (b.SetPercent w.indef p) with ⟨r3, written⟩
  rw [hw] at hc
  simp only at hc
  cases r3 <;> simp [hc]

theorem main_check (w : World) (entries : List FileInfo) (name : String) (args : List String)
    (hrd : w.readDir = .ok entries) (hs : (entries.map FileInfo.Name).Sorted (· ≤ ·))
    (hn : name ≠ "") :
    (∃ i found, BinarySearch (entries.map FileInfo.Name) name = some (i, found) ∧
        (found = true ↔ name ∈ entries.map FileInfo.Name)) ∧
      (Call.openFile (brightnessPath name) ∈ (main w name args).trace ↔
        name ∈ entries.map FileInfo.Name) ∧
      (name ∉ entries.map FileInfo.Name → (main w name args).exit = 1) := by
  obtain ⟨i, found, hi, hfound⟩ := binarySearch_sorted (entries.map FileInfo.Name) name hs
  refine ⟨⟨i, found, hi, hfound⟩, ?_⟩
  by_cases he : entries = []
  · subst he
    have hl : listBacklights w.readDir = .error .noBacklights := by
      rw [hrd, listBacklights_ok]; simp
    have hm : main w name args = ⟨1, [.readDir, .stderr (.listError .noBacklights)]⟩ := by
      unfold main; rw [hl]
    rw [hm]
    simp
  · have hl : listBacklights w.readDir = .ok (entries.map FileInfo.Name) := by
      rw [hrd, listBacklights_ok]; simp [he]
    by_cases hmem : name ∈ entries.map FileInfo.Name
    · have hi2 : BinarySearch (entries.map FileInfo.Name) name = some (i, true) := by
        rw [hi, hfound.mpr hmem]
      have := main_found_opens w name args _ i hl hn hi2
      exact ⟨⟨fun _ => hmem, fun _ => this⟩, fun h => absurd hmem h⟩
    · have hi2 : BinarySearch (entries.map FileInfo.Name) name = some (i, false) := by
        rw [hi]
        cases found with
        | false => rfl
        | true => exact absurd (hfound.mp rfl) hmem
      have hm := main_not_found w name args _ i hl hn hi2
      rw [hm]
      refine ⟨⟨fun h => ?_, fun h => absurd h hmem⟩, fun _ => rfl⟩
      simp at h

theorem two_lights_sorted :
    (([⟨"acpi_video0", true⟩, ⟨"intel_backlight", true⟩] : List FileInfo).map
      FileInfo.Name).Sorted (· ≤ ·) := by
  have h : ("acpi_video0" : String) ≤ "intel_backlight" := by
    apply le_of_lt; rw [String.lt_iff_toList_lt]; decide
  show List.Pairwise (· ≤ ·) ["acpi_video0", "intel_backlight"]
  refine List.Pairwise.cons ?_ (List.pairwise_singleton _ _)
  intro b hb
  rw [List.mem_singleton.mp hb]
  exact h

end Backlight

open Backlight

/-- C5: on a listing whose names ascend and a non-empty requested name, the binary search of
main finds the name exactly when it is in the list: main goes on to open the brightness file
iff the name is listed, and exits with status 1 otherwise; with the entries acpi_video0 and
intel_backlight the name intel_backlight is accepted and nonexistent is rejected. -/
theorem device_check_iff_listed (w : World) (entries : List FileInfo) (name : String)
    (args : List String) (hrd : w.readDir = .ok entries)
    (hs : (entries.map FileInfo.Name).Sorted (· ≤ ·)) (hn : name ≠ "") :
    ((∃ i found, BinarySearch (entries.map FileInfo.Name) name = some (i, found) ∧
          (found = true ↔ name ∈ entries.map FileInfo.Name)) ∧
        (Call.openFile (brightnessPath name) ∈ (Backlight.main w name args).trace ↔
          name ∈ entries.map FileInfo.Name) ∧
        (name ∉ entries.map FileInfo.Name → (Backlight.main w name args).exit = 1)) ∧
      (∀ v : World, v.readDir = .ok [⟨"acpi_video0", true⟩, ⟨"intel_backlight", true⟩] →
        Call.openFile (brightnessPath "intel_backlight")
            ∈ (Backlight.main v "intel_backlight" args).trace ∧
          Call.openFile (brightnessPath "nonexistent")
            ∉ (Backlight.main v "nonexistent" args).trace ∧
          (Backlight.main v "nonexistent" args).exit = 1) := by
  refine ⟨main_check w entries name args hrd hs hn, ?_⟩
  intro v hv
  have h1 := main_check v _ "intel_backlight" args hv two_lights_sorted (by decide)
  have h2 := main_check v _ "nonexistent" args hv two_lights_sorted (by decide)
  refine ⟨h1.2.1.mpr (by decide), ?_, h2.2.2 (by decide)⟩
  intro h
  exact absurd (h2.2.1.mp h) (by decide)

/-- Witness for C5: exampleWorld and the name intel_backlight. -/
theorem device_check_iff_listed_witness :
    exampleWorld.readDir = .ok [⟨"acpi_video0", true⟩, ⟨"intel_backlight", true⟩] ∧
      (([⟨"acpi_video0", true⟩, ⟨"intel_backlight", true⟩] : List FileInfo).map
        FileInfo.Name).Sorted (· ≤ ·) ∧
      ("intel_backlight" : String) ≠ "" ∧
      Call.openFile (brightnessPath "intel_backlight")
        ∈ (Backlight.main exampleWorld "intel_backlight" []).trace :=
  ⟨rfl, two_lights_sorted, by decide,
    (device_check_iff_listed exampleWorld [⟨"acpi_video0", true⟩, ⟨"intel_backlight", true⟩]
      "intel_backlight" [] rfl two_lights_sorted (by decide)).1.2.1.mpr (by decide)⟩

/-- C6: on a readable listing listBacklights fails with the no-backlights error exactly when
there is no entry, and otherwise returns the entry names, one per entry, in the order of the
listing. -/
theorem listBacklights_readable (entries : List FileInfo) :
    listBacklights (.ok entries)
        = (if entries = [] then .error .noBacklights else .ok (entries.map FileInfo.Name)) ∧
      (listBacklights (.ok entries) = .error .noBacklights ↔ entries = []) := by
  refine ⟨listBacklights_ok entries, ?_⟩
  rw [listBacklights_ok]
  by_cases h : entries = [] <;> simp [h]

/-- C7: a run of main creates or writes a file only if a device name was given and is in the
enumerated list, the current state was read, and a first positional argument was given and
scanned as a number; every other run performs no write. -/
theorem main_writes_only_when_requested (w : World) (name : String) (args : List String)
    (h : ∃ c ∈ (Backlight.main w name args).trace, c.isWrite = true) :
    name ≠ "" ∧ ∃ lights, listBacklights w.readDir = .ok lights ∧ name ∈ lights ∧
      (∃ b, (readLight w name).1 = .ok b) ∧
      ∃ arg rest, args = arg :: rest ∧ ∃ p, w.sscanFloat arg = .ok p :=
  main_write_only_if w name args h

theorem fscanInt_fifty : fscanInt ['5', '0', '\n'] = .ok 50 := by rfl

theorem readLight_exampleWorld (name : String) :
    readLight exampleWorld name
      = (.ok ⟨50, 50⟩, [.openFile (brightnessPath name), .openFile (maxBrightnessPath name)]) := by
  have h : ∀ path, readIntFile exampleWorld path = .ok 50 := by
    intro path
    simp only [readIntFile, exampleWorld, fscanInt_fifty]
  simp only [readLight, h]

theorem exampleWorld_writes :
    ∃ c ∈ (Backlight.main exampleWorld "intel_backlight" ["29"]).trace, c.isWrite = true := by
  obtain ⟨i, found, hi, hfound⟩ := binarySearch_sorted
    (([⟨"acpi_video0", true⟩, ⟨"intel_backlight", true⟩] : List FileInfo).map FileInfo.Name)
    "intel_backlight" two_lights_sorted
  have hl : listBacklights exampleWorld.readDir = .ok (([⟨"acpi_video0", true⟩,
      ⟨"intel_backlight", true⟩] : List FileInfo).map FileInfo.Name) := by
    show listBacklights (.ok _) = _
    rw [listBacklights_ok]; simp
  exact main_writes_of_found exampleWorld "intel_backlight" "29" [] _ i ⟨50, 50⟩ _
    (F64.fin false 29) hl (by decide) (by rw [hi, hfound.mpr (by decide)]) (readLight_exampleWorld _) rfl

/-- Witness for C7: in exampleWorld the run for intel_backlight with argument 29 writes. -/
theorem main_writes_only_when_requested_witness :
    (∃ c ∈ (Backlight.main exampleWorld "intel_backlight" ["29"]).trace, c.isWrite = true) ∧
      (("intel_backlight" : String) ≠ "" ∧
        ∃ lights, listBacklights exampleWorld.readDir = .ok lights ∧
          "intel_backlight" ∈ lights ∧
          (∃ b, (readLight exampleWorld "intel_backlight").1 = .ok b) ∧
          ∃ arg rest, ["29"] = arg :: rest ∧ ∃ p, exampleWorld.sscanFloat arg = .ok p) :=
  ⟨exampleWorld_writes,
    main_writes_only_when_requested exampleWorld "intel_backlight" ["29"] exampleWorld_writes⟩

/-- C10: for every int n (64 bits), the text writeLight writes for Current = n is the decimal
representation of n, a minus sign and digits only, hence without a newline, and Fscanf with
the verb d, and so readIntFile on a file holding it, reads back exactly n without error. -/
theorem write_then_read_roundtrip (w : World) (name : String) (b : Brightness)
    (hlo : -2 ^ 63 ≤ b.Current) (hhi : b.Current < 2 ^ 63) (text : List Char)
    (hw : Call.writeFile (brightnessPath name) text ∈ (writeLight w name b).2) :
    text = formatInt b.Current ∧ (∀ c ∈ text, c = '-' ∨ c.isDigit = true) ∧
      text.getLast? ≠ some '\n' ∧ fscanInt text = .ok b.Current ∧
      ∀ v : World, ∀ path, v.openFile path = .ok text →
        readIntFile v path = .ok b.Current := by
  have ht : text = formatInt b.Current := by
    unfold writeLight at hw
    split at hw
    · simp at hw
    · simp at hw
      exact hw
  subst ht
  have hch := formatInt_chars b.Current
  have hscan := fscanInt_formatInt b.Current hlo hhi
  refine ⟨rfl, hch, ?_, hscan, ?_⟩
  · intro hlast
    have hmem : '\n' ∈ formatInt b.Current := List.mem_of_getLast?_eq_some hlast
    rcases hch _ hmem with h | h
    · exact absurd h (by decide)
    · exact absurd h (by decide)
  · intro v path hv
    simp only [readIntFile, hv, hscan]

/-- Witness for C10: exampleWorld writes Current = -120 and reads it back. -/
theorem write_then_read_roundtrip_witness :
    (-2 ^ 63 ≤ (Brightness.mk (-120) 255).Current ∧ (Brightness.mk (-120) 255).Current < 2 ^ 63 ∧
      Call.writeFile (brightnessPath "intel_backlight") (formatInt (-120))
        ∈ (writeLight exampleWorld "intel_backlight" ⟨-120, 255⟩).2) ∧
      readIntFile (worldHolding (formatInt (-120))) (brightnessPath "intel_backlight")
        = .ok (-120) :=
  ⟨⟨by decide, by decide, by simp [writeLight, exampleWorld]⟩,
    (write_then_read_roundtrip exampleWorld "intel_backlight" ⟨-120, 255⟩ (by decide)
      (by decide) (formatInt (-120)) (by simp [writeLight, exampleWorld])).2.2.2.2
      (worldHolding (formatInt (-120))) (brightnessPath "intel_backlight") rfl⟩
